import Mathlib

/-!
Verification development for the JSON Path Query & Mutation Engine of the
`integration_gateway` repository (`intgw_notification.py`).

The engine's data model and operations are embedded shallowly:
JSON values become the inductive `JValue`; path expressions become lists of
`Selector`s; the mutation helpers (`_create_path`, `_parse_path_components`,
`_handle_wildcard_creation`, `_clean_none_values`) and the three public
operations (`resolve_path`, `update_path`, `delete_path`) are translated
from the Python source.  The behavior of the external `jsonpath_ng` query
library and of the `json` codec is not part of the repository; the
evaluator (`jpFind` / `jpMut`) is modelled from the specification of the
Query Evaluator, and the codec is abstracted as parameters of an `Env`.
-/

namespace IntGW

/-- JSON value tree, as produced by `json.loads`.  Object member order is the
insertion order of the underlying Python `dict`; numbers are modelled as
integers (no claim depends on float behavior). -/
inductive JValue where
  | null
  | bool (b : Bool)
  | num (n : Int)
  | str (s : String)
  | arr (elems : List JValue)
  | obj (members : List (String × JValue))

mutual

/-- Decidable structural equality on JSON values (written as a definition so
that concrete counterexamples evaluate by `decide`). -/
def decEqJ : (a b : JValue) → Decidable (a = b)
  | .null, .null => isTrue rfl
  | .bool a, .bool b =>
    if h : a = b then isTrue (by rw [h]) else isFalse (by simp [h])
  | .num a, .num b =>
    if h : a = b then isTrue (by rw [h]) else isFalse (by simp [h])
  | .str a, .str b =>
    if h : a = b then isTrue (by rw [h]) else isFalse (by simp [h])
  | .arr xs, .arr ys =>
    (match decEqArr xs ys with
     | isTrue h => isTrue (by rw [h])
     | isFalse h => isFalse (by simp [h]))
  | .obj xs, .obj ys =>
    (match decEqMembers xs ys with
     | isTrue h => isTrue (by rw [h])
     | isFalse h => isFalse (by simp [h]))
  | .null, .bool _ | .null, .num _ | .null, .str _ | .null, .arr _
  | .null, .obj _ | .bool _, .null | .bool _, .num _ | .bool _, .str _
  | .bool _, .arr _ | .bool _, .obj _ | .num _, .null | .num _, .bool _
  | .num _, .str _ | .num _, .arr _ | .num _, .obj _ | .str _, .null
  | .str _, .bool _ | .str _, .num _ | .str _, .arr _ | .str _, .obj _
  | .arr _, .null | .arr _, .bool _ | .arr _, .num _ | .arr _, .str _
  | .arr _, .obj _ | .obj _, .null | .obj _, .bool _ | .obj _, .num _
  | .obj _, .str _ | .obj _, .arr _ => isFalse (by simp)

def decEqArr : (xs ys : List JValue) → Decidable (xs = ys)
  | [], [] => isTrue rfl
  | x :: xs, y :: ys =>
    (match decEqJ x y, decEqArr xs ys with
     | isTrue h1, isTrue h2 => isTrue (by rw [h1, h2])
     | isFalse h1, _ => isFalse (by simp [h1])
     | _, isFalse h2 => isFalse (by simp [h2]))
  | [], _ :: _ => isFalse (by simp)
  | _ :: _, [] => isFalse (by simp)

def decEqMembers : (xs ys : List (String × JValue)) → Decidable (xs = ys)
  | [], [] => isTrue rfl
  | (k, v) :: xs, (k2, v2) :: ys =>
    (match decEq k k2, decEqJ v v2, decEqMembers xs ys with
     | isTrue h0, isTrue h1, isTrue h2 => isTrue (by rw [h0, h1, h2])
     | isFalse h0, _, _ => isFalse (by simp [h0])
     | _, isFalse h1, _ => isFalse (by simp [h1])
     | _, _, isFalse h2 => isFalse (by simp [h2]))
  | [], _ :: _ => isFalse (by simp)
  | _ :: _, [] => isFalse (by simp)

end

instance : DecidableEq JValue := decEqJ

/-- Direct children of a node: object member values or array elements. -/
def childrenOf : JValue → List JValue
  | .obj kvs => kvs.map Prod.snd
  | .arr xs => xs
  | _ => []

/-- Tombstone test: the deletion marker is the JSON null value itself. -/
def isNullB : JValue → Bool
  | .null => true
  | _ => false

/-- First-occurrence lookup in an object's member list (Python `dict` access). -/
def objLookup : List (String × JValue) → String → Option JValue
  | [], _ => none
  | (k, v) :: tl, key => if k = key then some v else objLookup tl key

/-- Apply `g` to the value of the first member named `key` (in-place update of
an existing Python `dict` entry, keeping its position). -/
def objMapFirst (g : JValue → JValue) (key : String) :
    List (String × JValue) → List (String × JValue)
  | [] => []
  | (k, v) :: tl =>
    if k = key then (k, g v) :: tl else (k, v) :: objMapFirst g key tl

/-- Python `dict` assignment `d[key] = v`: replace the value in place when the
key exists, append a new member otherwise. -/
def objSet (kvs : List (String × JValue)) (key : String) (v : JValue) :
    List (String × JValue) :=
  if (objLookup kvs key).isSome then objMapFirst (fun _ => v) key kvs
  else kvs ++ [(key, v)]

/-- Python list index resolution: nonnegative indices in range, negative
indices counted from the end; `none` corresponds to `IndexError`. -/
def pyIdx (len : Nat) (i : Int) : Option Nat :=
  if 0 ≤ i then (if i < (len : Int) then some i.toNat else none)
  else (if 0 ≤ (len : Int) + i then some ((len : Int) + i).toNat else none)

/-- The Python loop `while len(current) <= index: current.append(filler)`:
no padding happens for a negative index. -/
def padTo (xs : List JValue) (i : Int) (filler : JValue) : List JValue :=
  if i < 0 then xs else xs ++ List.replicate (i.toNat + 1 - xs.length) filler

/-- Comparison operators of the filter selector. -/
inductive CmpOp where
  | ceq | cne | clt | cle | cgt | cge
deriving DecidableEq

/-- Selector of a compiled path expression (spec §3): object member access,
array index (negative counts from the end), wildcard, recursive descent,
slice, and filter. -/
inductive Selector where
  | field (name : String)
  | index (i : Int)
  | wild
  | rd
  | slice (start stop : Int)
  | filt (fieldName : String) (op : CmpOp) (lit : JValue)
deriving DecidableEq

/-- Modelled from the spec: comparison used by the `Filter` selector; equality
is structural, the order comparisons hold only between numbers. -/
def cmpJ : CmpOp → JValue → JValue → Bool
  | .ceq, a, b => a = b
  | .cne, a, b => ¬ a = b
  | .clt, .num a, .num b => a < b
  | .cle, .num a, .num b => a ≤ b
  | .cgt, .num a, .num b => b < a
  | .cge, .num a, .num b => b ≤ a
  | _, _, _ => false

/-- Modelled from the spec: a filter keeps array elements whose object member
`fieldName` compares to the literal with the given operator. -/
def filtTest (fieldName : String) (op : CmpOp) (lit : JValue) : JValue → Bool
  | .obj kvs =>
    match objLookup kvs fieldName with
    | some x => cmpJ op x lit
    | none => false
  | _ => false

/-- Python slice bound normalization (clamping, negative from the end). -/
def sliceBound (len : Nat) (b : Int) : Nat :=
  if b < 0 then ((len : Int) + b).toNat else min b.toNat len

/-- Whether array position `n` lies inside the slice `[start:stop]`. -/
def inSlice (len : Nat) (start stop : Int) (n : Nat) : Bool :=
  sliceBound len start ≤ n && n < sliceBound len stop

mutual

/-- Modelled from the spec: for `RecursiveDescent` the walk visits the current
node before descending into each child, depth-first, left-to-right. -/
def descendantsSelf : JValue → List JValue
  | .obj kvs => .obj kvs :: descMembers kvs
  | .arr xs => .arr xs :: descElems xs
  | v => [v]

def descMembers : List (String × JValue) → List JValue
  | [] => []
  | (_, v) :: tl => descendantsSelf v ++ descMembers tl

def descElems : List JValue → List JValue
  | [] => []
  | v :: tl => descendantsSelf v ++ descElems tl

end

/-- Modelled from the spec: children selected by one selector at one node, in
container order.  `Field`/`Index` visit at most one child; out-of-range
indices qualify nothing (zero matches, not an error). -/
def selectOne : Selector → JValue → List JValue
  | .field k, .obj kvs => (objLookup kvs k).toList
  | .index i, .arr xs =>
    (match pyIdx xs.length i with
     | some n => [xs.getD n .null]
     | none => [])
  | .wild, .obj kvs => kvs.map Prod.snd
  | .wild, .arr xs => xs
  | .rd, v => descendantsSelf v
  | .slice a b, .arr xs =>
    (List.range xs.length).filterMap
      (fun n => if inSlice xs.length a b n then some (xs.getD n .null) else none)
  | .filt f op lit, .arr xs => xs.filter (filtTest f op lit)
  | _, _ => []

/-- Modelled from the spec: the Query Evaluator.  `jpFind sels v` is the
ordered sequence of values matched by the expression `sels` in `v`
(the addressing information of a `Match` is kept implicit: mutation is
performed by `jpMut` at the same locations). -/
def jpFind : List Selector → JValue → List JValue
  | [], v => [v]
  | s :: rest, v => (selectOne s v).flatMap (jpFind rest)

mutual

/-- Apply `g` to every node of the tree, children first (used for the
`RecursiveDescent` selector during mutation). -/
def mutEverywhere (g : JValue → JValue) : JValue → JValue
  | .obj kvs => g (.obj (mutEvMembers g kvs))
  | .arr xs => g (.arr (mutEvElems g xs))
  | v => g v

def mutEvMembers (g : JValue → JValue) :
    List (String × JValue) → List (String × JValue)
  | [] => []
  | (k, v) :: tl => (k, mutEverywhere g v) :: mutEvMembers g tl

def mutEvElems (g : JValue → JValue) : List JValue → List JValue
  | [] => []
  | v :: tl => mutEverywhere g v :: mutEvElems g tl

end

/-- Apply `g` to the elements of `xs` whose position satisfies `p`. -/
def mutIdxFrom (g : JValue → JValue) (p : Nat → Bool) :
    Nat → List JValue → List JValue
  | _, [] => []
  | n, x :: tl => (if p n then g x else x) :: mutIdxFrom g p (n + 1) tl

/-- Modelled from the spec: apply `g` in place at every child selected by one
selector.  Children the selector does not qualify are untouched; a selector
that does not fit the node shape qualifies nothing. -/
def mutStep (g : JValue → JValue) : Selector → JValue → JValue
  | .field k, .obj kvs =>
    (match objLookup kvs k with
     | some _ => .obj (objMapFirst g k kvs)
     | none => .obj kvs)
  | .index i, .arr xs =>
    (match pyIdx xs.length i with
     | some n => .arr (xs.set n (g (xs.getD n .null)))
     | none => .arr xs)
  | .wild, .obj kvs => .obj (kvs.map (fun p => (p.1, g p.2)))
  | .wild, .arr xs => .arr (xs.map g)
  | .rd, v => mutEverywhere g v
  | .slice a b, .arr xs => .arr (mutIdxFrom g (inSlice xs.length a b) 0 xs)
  | .filt f op lit, .arr xs =>
    .arr (xs.map (fun e => if filtTest f op lit e then g e else e))
  | _, v => v

/-- Modelled from the spec: mutation at every location matched by the
expression — the counterpart of `jpFind` that rewrites matched values
through their container reference. -/
def jpMut (g : JValue → JValue) : List Selector → JValue → JValue
  | [], v => g v
  | s :: rest, v => mutStep (jpMut g rest) s v

/-- The library call `jsonpath_expr.update(json_data, value)`: every matched
location is overwritten with `newV`.  A match of the bare root expression has
no container reference, so the root itself is never overwritten (the
library's root update returns the new value without mutating `json_data`,
and the caller discards that return value). -/
def jpUpdate (v : JValue) (sels : List Selector) (newV : JValue) : JValue :=
  match sels with
  | [] => v
  | _ :: _ => jpMut (fun _ => newV) sels v

mutual

/-- Translation of `_clean_none_values`: remove every `None` member of a dict
and every `None` element of a list, recursing into the survivors. -/
def clean_none_values : JValue → JValue
  | .obj kvs => .obj (cleanMembers kvs)
  | .arr xs => .arr (cleanElems xs)
  | v => v

def cleanMembers : List (String × JValue) → List (String × JValue)
  | [] => []
  | (k, v) :: tl =>
    if isNullB v then cleanMembers tl
    else (k, clean_none_values v) :: cleanMembers tl

def cleanElems : List JValue → List JValue
  | [] => []
  | v :: tl =>
    if isNullB v then cleanElems tl
    else clean_none_values v :: cleanElems tl

end

mutual

/-- No object member and no array element anywhere in the tree is null
(no tombstone residue). -/
def nullFree : JValue → Bool
  | .obj kvs => nullFreeMembers kvs
  | .arr xs => nullFreeElems xs
  | _ => true

def nullFreeMembers : List (String × JValue) → Bool
  | [] => true
  | (_, v) :: tl => !(isNullB v) && nullFree v && nullFreeMembers tl

def nullFreeElems : List JValue → Bool
  | [] => true
  | v :: tl => !(isNullB v) && nullFree v && nullFreeElems tl

end

/-- Membership of a key in a key list. -/
def keyMem (k : String) : List String → Bool
  | [] => false
  | k0 :: tl => (k0 = k) || keyMem k tl

/-- Keys of a member list are pairwise distinct. -/
def distinctKeys : List String → Bool
  | [] => true
  | k :: tl => !(keyMem k tl) && distinctKeys tl

mutual

/-- Well-formedness of a decoded Python value: every object has distinct
member keys (a Python `dict` cannot hold a key twice). -/
def wfB : JValue → Bool
  | .obj kvs => distinctKeys (kvs.map Prod.fst) && wfMembers kvs
  | .arr xs => wfElems xs
  | _ => true

def wfMembers : List (String × JValue) → Bool
  | [] => true
  | (_, v) :: tl => wfB v && wfMembers tl

def wfElems : List JValue → Bool
  | [] => true
  | v :: tl => wfB v && wfElems tl

end

/-- Error taxonomy of the engine as implemented: `ValidationError` for bad
caller arguments or unsupported field types, `DataError` for every data-layer
failure (the Python messages are not modelled). -/
inductive PErr where
  | validation
  | dataErr
deriving DecidableEq

/-- When `sep` is a prefix of the character list, the remainder after it. -/
def dropPrefixQ : List Char → List Char → Option (List Char)
  | [], rest => some rest
  | _ :: _, [] => none
  | p :: ps, c :: cs => if c = p then dropPrefixQ ps cs else none

/-- Worker for `pySplit`, scanning left to right; the fuel equals the input
length plus one, so the fuel-exhausted branch is unreachable for a nonempty
separator. -/
def splitGo (sep : List Char) : Nat → List Char → List Char → List (List Char)
  | _, acc, [] => [acc.reverse]
  | 0, acc, rest => [acc.reverse ++ rest]
  | fuel + 1, acc, c :: cs =>
    match dropPrefixQ sep (c :: cs) with
    | some rest => acc.reverse :: splitGo sep fuel [] rest
    | none => splitGo sep fuel (c :: acc) cs

/-- Python `s.split(sep)` for a nonempty separator (also the behavior of the
`in` substring test via the piece count). -/
def pySplit (s sep : String) : List String :=
  (splitGo sep.data (s.data.length + 1) [] s.data).map String.mk

/-- Python `c in s` for a single character. -/
def chContains (s : String) (c : Char) : Bool := s.data.contains c

/-- Python `s.startswith(pre)`. -/
def pyStartsWith (s pre : String) : Bool := (dropPrefixQ pre.data s.data).isSome

/-- Dropping the first `n` characters (used to strip the root marker). -/
def pyDrop (s : String) (n : Nat) : String := String.mk (s.data.drop n)

/-- Python whitespace test of `str.strip`. -/
def isSpaceCh (c : Char) : Bool := c = ' ' || c = '\t' || c = '\n' || c = '\r'

/-- Python `s.strip()`. -/
def pyStrip (s : String) : String :=
  String.mk (((s.data.dropWhile isSpaceCh).reverse.dropWhile isSpaceCh).reverse)

/-- Decimal digit value of a character. -/
def digitVal (c : Char) : Option Nat :=
  if c = '0' then some 0 else if c = '1' then some 1 else if c = '2' then some 2
  else if c = '3' then some 3 else if c = '4' then some 4 else if c = '5' then some 5
  else if c = '6' then some 6 else if c = '7' then some 7 else if c = '8' then some 8
  else if c = '9' then some 9 else none

def digitsGo : Nat → List Char → Option Nat
  | acc, [] => some acc
  | acc, c :: cs =>
    match digitVal c with
    | some d => digitsGo (acc * 10 + d) cs
    | none => none

def chToNat : List Char → Option Nat
  | [] => none
  | l => digitsGo 0 l

/-- Python `int(s)` on the index text of a path component (an optional sign
followed by digits; surrounding whitespace is not modelled). -/
def pyToInt (s : String) : Option Int :=
  match s.data with
  | '-' :: rest => (chToNat rest).map (fun n => -(n : Int))
  | l => (chToNat l).map (fun n => (n : Int))

/-- Translation of one iteration of `_parse_path_components`: a path part is
an array access `name[i]` / `[i]` when it contains both brackets, a plain
member name otherwise.  (Python `int()` also accepts surrounding whitespace
and an explicit plus sign; those exotic index spellings are not modelled.) -/
structure Component where
  key : String
  isArr : Bool
  index : Int := 0
deriving DecidableEq

def parseComponent (part : String) : Except PErr Component :=
  if chContains part '[' && chContains part ']' then
    let keyPart := (pySplit part "[").headD ""
    let indexPart := (pySplit ((pySplit part "[").getD 1 "") "]").headD ""
    match pyToInt indexPart with
    | some i => .ok ⟨keyPart, true, i⟩
    | none => .error .dataErr
  else .ok ⟨part, false, 0⟩

/-- Translation of `_parse_path_components`: split the prefix-stripped path on
dots and classify each part. -/
def parse_path_components (path : String) : Except PErr (List Component) :=
  (pySplit path ".").mapM parseComponent

/-- Padding then assignment for the final array component of `_create_path`:
`while len(current) <= index: current.append(None)` followed by
`current[index] = value`; a still-unresolvable (negative) index is the
Python `IndexError`, surfaced as a data error. -/
def padSet (xs : List JValue) (i : Int) (newV : JValue) :
    Except PErr (List JValue) :=
  match pyIdx (padTo xs i .null).length i with
  | some n => .ok ((padTo xs i .null).set n newV)
  | none => .error .dataErr

/-- Padding then index resolution for an intermediate array component of
`_create_path`: `while len(current) <= index: current.append({})` followed by
`current = current[index]`. -/
def padDescend (xs : List JValue) (i : Int) :
    Except PErr (Nat × List JValue) :=
  match pyIdx (padTo xs i (.obj [])).length i with
  | some n => .ok (n, padTo xs i (.obj []))
  | none => .error .dataErr

/-- The shape check `isinstance(current, dict)` (a non-dict where a member is
looked up or set raises, surfaced as a data error). -/
def asObj : JValue → Except PErr (List (String × JValue))
  | .obj kvs => .ok kvs
  | _ => .error .dataErr

/-- The shape check `isinstance(current, list)`. -/
def asArr : JValue → Except PErr (List JValue)
  | .arr xs => .ok xs
  | _ => .error .dataErr

/-- The value an intermediate member step of `_create_path` descends into:
the existing member when present, otherwise a fresh container typed by
inspecting the next component (a bare-index next component means the new
member must be an array, anything else an object). -/
def childInit (kvs : List (String × JValue)) (key : String) (c2 : Component) :
    JValue :=
  match objLookup kvs key with
  | some child0 => child0
  | none => if c2.isArr && c2.key = "" then .arr [] else .obj []

/-- Translation of the walk of `_create_path` over the parsed components.
The imperative original navigates with an aliased `current` cursor and
mutates `data` in place; the translation rebuilds the tree along the walked
path, which is observationally the same because a decoded JSON tree has no
sharing and a raised exception discards the partially mutated copy.  A
member access on a non-dict raises in Python whether or not the key test
succeeds, hence the uniform `asObj` checks. -/
def create_path (v : JValue) : List Component → JValue → Except PErr JValue
  | [], _ => .error .dataErr
  | [c], newV =>
    if c.isArr then
      if c.key = "" then do
        let xs ← asArr v
        let ys ← padSet xs c.index newV
        .ok (.arr ys)
      else do
        let kvs ← asObj v
        let xs ← asArr ((objLookup kvs c.key).getD (.arr []))
        let ys ← padSet xs c.index newV
        .ok (.obj (objSet kvs c.key (.arr ys)))
    else do
      let kvs ← asObj v
      .ok (.obj (objSet kvs c.key newV))
  | c :: c2 :: rest, newV =>
    if c.isArr then
      if c.key = "" then do
        let xs ← asArr v
        let p ← padDescend xs c.index
        let child ← create_path ((p.2).getD p.1 .null) (c2 :: rest) newV
        .ok (.arr ((p.2).set p.1 child))
      else do
        let kvs ← asObj v
        let xs ← asArr ((objLookup kvs c.key).getD (.arr []))
        let p ← padDescend xs c.index
        let child ← create_path ((p.2).getD p.1 .null) (c2 :: rest) newV
        .ok (.obj (objSet kvs c.key (.arr ((p.2).set p.1 child))))
    else do
      let kvs ← asObj v
      let child ← create_path (childInit kvs c.key c2) (c2 :: rest) newV
      .ok (.obj (objSet kvs c.key child))

/-- Root-marker stripping at the top of `_create_path`. -/
def stripRoot (path : String) : String :=
  if pyStartsWith path "$." then pyDrop path 2
  else if pyStartsWith path "$" then pyDrop path 1
  else path

/-- Translation of `_create_path` on the raw path string: strip the root
marker, reject an empty remainder, parse the components and walk them. -/
def create_path_str (v : JValue) (path : String) (newV : JValue) :
    Except PErr JValue :=
  let p := stripRoot path
  if p = "" then .error .dataErr
  else do
    let comps ← parse_path_components p
    create_path v comps newV

/-- Substring test (Python `needle in haystack` on strings). -/
def hasSubstr (s pat : String) : Bool := (pySplit s pat).length ≥ 2

/-- Setting one member on every object element of a matched array, used by
the wildcard-creation handler; non-object elements are skipped and the
element count is untouched. -/
def setMemberOnObjects (fieldName : String) (newV : JValue) : JValue → JValue
  | .arr xs =>
    .arr (xs.map (fun e =>
      match e with
      | .obj kvs => .obj (objSet kvs fieldName newV)
      | _ => e))
  | v => v

/-- Translation of `_handle_wildcard_creation`: only the shape
`$.arrayPath[*].fieldName` is supported; the array path is resolved with the
path compiler and every object element of every matched list receives the
member in place (zero matched lists is a silent no-op); any other wildcard
pattern is a data error. -/
def handle_wildcard_creation (compile : String → Except PErr (List Selector))
    (data : JValue) (path : String) (newV : JValue) : Except PErr JValue :=
  if pyStartsWith path "$." && hasSubstr path "[*]" then
    let parts := pySplit (pyDrop path 2) "[*]."
    if parts.length = 2 then
      let arrayPath := parts.headD ""
      let fieldName := parts.getD 1 ""
      match compile ("$." ++ arrayPath) with
      | .ok sels => .ok (jpMut (setMemberOnObjects fieldName newV) sels data)
      | .error _ => .error .dataErr
    else .error .dataErr
  else .error .dataErr

def hasStar (path : String) : Bool := chContains path '*'

def hasDotDot (path : String) : Bool := hasSubstr path ".."

/-- The update core of `update_path` once the document tree and the compiled
expression are in hand: overwrite every existing match, otherwise dispatch on
the raw path text between wildcard creation and plain path synthesis. -/
def updateVal (compile : String → Except PErr (List Selector))
    (data : JValue) (path : String) (newV : JValue) : Except PErr JValue :=
  match compile path with
  | .error _ => .error .dataErr
  | .ok sels =>
    if (jpFind sels data).isEmpty then
      if hasStar path || hasDotDot path then
        handle_wildcard_creation compile data path newV
      else create_path_str data path newV
    else .ok (jpUpdate data sels newV)

/-- The delete core of `delete_path`: zero matches is a no-op that returns
the document unchanged; otherwise every match is overwritten with the `None`
tombstone and the tree is compacted by `_clean_none_values`. -/
def deleteVal (data : JValue) (sels : List Selector) : JValue :=
  if (jpFind sels data).isEmpty then data
  else clean_none_values (jpUpdate data sels .null)

/-- Selectors denoted by one parsed path component: a bracketed component
`name[i]` stands for a member access followed by an index access, a bare
bracket `[i]` for an index access alone, anything else for a member access. -/
def selectorsOfComp (c : Component) : List Selector :=
  if c.isArr then
    (if c.key = "" then [.index c.index] else [.field c.key, .index c.index])
  else [.field c.key]

def selectorsOf (comps : List Component) : List Selector :=
  comps.flatMap selectorsOfComp

/-- Modelled from the spec: the value a `Field` step of synthesis descends
into — the existing member when present, otherwise a fresh container typed by
the next selector (array when the next selector is an `Index`, object
otherwise). -/
def specInit (kvs : List (String × JValue)) (k : String) (s2 : Selector) :
    JValue :=
  match objLookup kvs k with
  | some c => c
  | none => (match s2 with | .index _ => .arr [] | _ => .obj [])

/-- Modelled from the spec (§4.4 step 3, as amended by the padding
counterexample): path synthesis walks the selectors left to right.  At a
`Field` step a missing member is created, typed by the next selector (array
when the next selector is an `Index`, object otherwise).  At an intermediate
`Index` step a too-short array is padded with empty-object placeholders
until it can hold the index, and the walk descends into that slot.  At the
final selector the target member or index is set to the value, a final
too-short array being padded with nulls.  A node whose shape does not fit
the selector, or an index that stays unresolvable (negative beyond the
array length), is a data error. -/
def synthSpec : JValue → List Selector → JValue → Except PErr JValue
  | _, [], _ => .error .dataErr
  | v, [.field k], newV => do
    let kvs ← asObj v
    .ok (.obj (objSet kvs k newV))
  | v, [.index i], newV => do
    let xs ← asArr v
    let ys ← padSet xs i newV
    .ok (.arr ys)
  | v, .field k :: s2 :: rest, newV => do
    let kvs ← asObj v
    let child ← synthSpec (specInit kvs k s2) (s2 :: rest) newV
    .ok (.obj (objSet kvs k child))
  | v, .index i :: s2 :: rest, newV => do
    let xs ← asArr v
    let p ← padDescend xs i
    let child ← synthSpec ((p.2).getD p.1 .null) (s2 :: rest) newV
    .ok (.arr ((p.2).set p.1 child))
  | _, _ :: _, _ => .error .dataErr

/-- Caller-supplied Python argument: a string, or something that fails the
`isinstance(x, str)` validation. -/
inductive Arg where
  | astr (s : String)
  | nonString

/-- Stored content of a document field as seen through `self.get`: JSON text,
an already-decoded container, or a value of an unsupported type.  A stored
Python `None` is identified with the absent field (`self.get` returns `None`
for both). -/
inductive FieldContent where
  | ftext (s : String)
  | fjson (j : JValue)
  | funsupported

/-- The host record: field name to content. -/
def DocState := List (String × FieldContent)

def lookupField : DocState → String → Option FieldContent
  | [], _ => none
  | (k, v) :: tl, key => if k = key then some v else lookupField tl key

def setField : DocState → String → FieldContent → DocState
  | [], key, c => [(key, c)]
  | (k, v) :: tl, key, c =>
    if k = key then (k, c) :: tl else (k, v) :: setField tl key c

/-- External collaborators of the engine, abstracted: the path compiler of
the `jsonpath_ng` dependency and the `json` codec.  `loads` returns `none`
on a `JSONDecodeError`; `dumps` is the canonical-text encoder. -/
structure Env where
  compile : String → Except PErr (List Selector)
  loads : String → Option JValue
  dumps : JValue → String

/-- Whether a decoded value passes `isinstance(field_value, (dict, list))`. -/
def isContainer : JValue → Bool
  | .obj _ => true
  | .arr _ => true
  | _ => false

/-- Outcome of one public operation: the returned value or typed error, the
resulting host state, how many times `frappe.log_error` ran, and whether the
field was read at all. -/
structure OpOut (α : Type) where
  result : Except PErr α
  state : DocState
  logged : Nat
  readField : Bool

/-- Value returned by `resolve_path` after a successful evaluation: the
caller-supplied default, the single matched value, or the ordered list of
matched values. -/
inductive RValue where
  | rdefault
  | single (v : JValue)
  | multi (vs : List JValue)
deriving DecidableEq

/-- Shaping of the match list into the returned value (`resolve_path` lines
handling zero, one and several matches). -/
def matchResult : List JValue → RValue
  | [] => .rdefault
  | [v] => .single v
  | vs => .multi vs

/-- Translation of `resolve_path`: argument validation before any data is
touched, field read, decoding, compilation, evaluation.  Decoding and
compilation failures are logged once and surfaced as data errors; validation
failures are raised unlogged before the field is read. -/
def resolve_path (env : Env) (st : DocState) (path fieldName : Arg) :
    OpOut RValue :=
  match path with
  | .nonString => ⟨.error .validation, st, 0, false⟩
  | .astr p =>
    if pyStrip p = "" then ⟨.error .validation, st, 0, false⟩
    else
      match fieldName with
      | .nonString => ⟨.error .validation, st, 0, false⟩
      | .astr fn =>
        match lookupField st fn with
        | none => ⟨.ok .rdefault, st, 0, true⟩
        | some (.ftext s) =>
          if pyStrip s = "" then ⟨.ok .rdefault, st, 0, true⟩
          else
            (match env.loads s with
             | none => ⟨.error .dataErr, st, 1, true⟩
             | some j =>
               (match env.compile p with
                | .error _ => ⟨.error .dataErr, st, 1, true⟩
                | .ok sels => ⟨.ok (matchResult (jpFind sels j)), st, 0, true⟩))
        | some (.fjson j) =>
          if isContainer j then
            (match env.compile p with
             | .error _ => ⟨.error .dataErr, st, 1, true⟩
             | .ok sels => ⟨.ok (matchResult (jpFind sels j)), st, 0, true⟩)
          else ⟨.error .validation, st, 0, true⟩
        | some .funsupported => ⟨.error .validation, st, 0, true⟩

/-- Translation of `update_path`: validation, field read (an absent or blank
field starts from an empty object), decoding, compilation, the update core,
then persistence of the canonical text via `db_set`/`set` only after the
fully updated tree is in hand.  The log counter records the logging of
decoding and compilation failures exactly; a failure inside the update core
is counted as one log entry, standing for the original's mix of directly
raised data errors and logged-then-wrapped exceptions, which this embedding
does not distinguish. -/
def update_path (env : Env) (st : DocState) (path fieldName : Arg)
    (newV : JValue) : OpOut JValue :=
  match path with
  | .nonString => ⟨.error .validation, st, 0, false⟩
  | .astr p =>
    if pyStrip p = "" then ⟨.error .validation, st, 0, false⟩
    else
      match fieldName with
      | .nonString => ⟨.error .validation, st, 0, false⟩
      | .astr fn =>
        let decoded : Except PErr JValue :=
          match lookupField st fn with
          | none => .ok (.obj [])
          | some (.ftext s) =>
            if pyStrip s = "" then .ok (.obj [])
            else
              (match env.loads s with
               | none => .error .dataErr
               | some j => .ok j)
          | some (.fjson j) =>
            if isContainer j then .ok j else .error .validation
          | some .funsupported => .error .validation
        match decoded with
        | .error .dataErr => ⟨.error .dataErr, st, 1, true⟩
        | .error e => ⟨.error e, st, 0, true⟩
        | .ok data =>
          match updateVal env.compile data p newV with
          | .error e => ⟨.error e, st, 1, true⟩
          | .ok data' =>
            ⟨.ok data', setField st fn (.ftext (env.dumps data')), 0, true⟩

/-- Compilation followed by the delete core of `delete_path`: a zero-match
delete returns the document without persisting; a performed delete persists
the canonical text of the compacted tree. -/
def deleteCore (env : Env) (st : DocState) (fn p : String) (j : JValue) :
    OpOut JValue :=
  match env.compile p with
  | .error _ => ⟨.error .dataErr, st, 1, true⟩
  | .ok sels =>
    if (jpFind sels j).isEmpty then ⟨.ok j, st, 0, true⟩
    else
      let data' := clean_none_values (jpUpdate j sels .null)
      ⟨.ok data', setField st fn (.ftext (env.dumps data')), 0, true⟩

/-- Translation of `delete_path`: validation, field read (an absent or blank
field returns an empty object without persisting anything), decoding,
compilation, then the delete core. -/
def delete_path (env : Env) (st : DocState) (path fieldName : Arg) :
    OpOut JValue :=
  match path with
  | .nonString => ⟨.error .validation, st, 0, false⟩
  | .astr p =>
    if pyStrip p = "" then ⟨.error .validation, st, 0, false⟩
    else
      match fieldName with
      | .nonString => ⟨.error .validation, st, 0, false⟩
      | .astr fn =>
        match lookupField st fn with
        | none => ⟨.ok (.obj []), st, 0, true⟩
        | some (.ftext s) =>
          if pyStrip s = "" then ⟨.ok (.obj []), st, 0, true⟩
          else
            (match env.loads s with
             | none => ⟨.error .dataErr, st, 1, true⟩
             | some j => deleteCore env st fn p j)
        | some (.fjson j) =>
          if isContainer j then deleteCore env st fn p j
          else ⟨.error .validation, st, 0, true⟩
        | some .funsupported => ⟨.error .validation, st, 0, true⟩

/-- Selectors that address at most one location deterministically. -/
def isFI : Selector → Bool
  | .field _ => true
  | .index _ => true
  | _ => false

/-- Selectors that access an object member. -/
def isFieldSel : Selector → Bool
  | .field _ => true
  | _ => false

/-- Number of members of an object node (used to state the compaction
member-count law). -/
def memberCount : JValue → Nat
  | .obj kvs => kvs.length
  | _ => 0

/-- Whether an operation result is a success. -/
def isOkE {α : Type} : Except PErr α → Bool
  | .ok _ => true
  | .error _ => false

/-- The argument validation of the three public operations: the path must be
a string that is nonempty after stripping, the field name must be a string. -/
def badArgs : Arg → Arg → Bool
  | .nonString, _ => true
  | .astr _, .nonString => true
  | .astr p, .astr _ => pyStrip p = ""

instance : DecidableEq (Except PErr JValue) := fun a b =>
  match a, b with
  | .ok x, .ok y =>
    if h : x = y then isTrue (by rw [h]) else isFalse (by simp [h])
  | .error x, .error y =>
    if h : x = y then isTrue (by rw [h]) else isFalse (by simp [h])
  | .ok _, .error _ => isFalse (by simp)
  | .error _, .ok _ => isFalse (by simp)

/-- Selectors whose matching is purely structural: member access, wildcard
and recursive descent.  Excluded are the positional selectors (`Index`,
`Slice`), whose matches shift when compaction removes elements, and
`Filter`, whose match set can change when compaction rewrites the elements
it tests. -/
def isFieldWildRd : Selector → Bool
  | .field _ => true
  | .wild => true
  | .rd => true
  | _ => false

mutual

/-- `nsubB w w2` holds when `w2` arises from `w` by replacing some subtrees
with null — the shape relation between a tree and the result of a tombstone
pass: every surviving node keeps its constructor, and objects keep their
member names in order. -/
def nsubB : JValue → JValue → Bool
  | _, .null => true
  | .obj kvs, .obj kvs2 => nsubMembers kvs kvs2
  | .arr xs, .arr xs2 => nsubElems xs xs2
  | .bool a, .bool b => a = b
  | .num a, .num b => a = b
  | .str a, .str b => a = b
  | _, _ => false

def nsubMembers : List (String × JValue) → List (String × JValue) → Bool
  | [], [] => true
  | (k, v) :: tl, (k2, v2) :: tl2 =>
    (k = k2) && nsubB v v2 && nsubMembers tl tl2
  | _, _ => false

def nsubElems : List JValue → List JValue → Bool
  | [], [] => true
  | v :: tl, v2 :: tl2 => nsubB v v2 && nsubElems tl tl2
  | _, _ => false

end

/-! Lemmas about compaction: `_clean_none_values` leaves no null member or
element anywhere, keeps exactly the non-null members and elements in order,
and is the identity on already-clean trees. -/

theorem isNullB_clean (v : JValue) :
    isNullB (clean_none_values v) = isNullB v := by
  cases v <;> rfl

mutual

theorem nullFree_clean : ∀ v, nullFree (clean_none_values v) = true
  | .null => rfl
  | .bool _ => rfl
  | .num _ => rfl
  | .str _ => rfl
  | .arr xs => nullFreeElems_cleanElems xs
  | .obj kvs => nullFreeMembers_cleanMembers kvs

theorem nullFreeMembers_cleanMembers :
    ∀ kvs, nullFreeMembers (cleanMembers kvs) = true
  | [] => rfl
  | (k, v) :: tl => by
    by_cases h : isNullB v = true
    · simpa [cleanMembers, h] using nullFreeMembers_cleanMembers tl
    · simp only [cleanMembers, h, if_neg, Bool.false_eq_true, not_false_iff,
        if_false, nullFreeMembers, Bool.and_eq_true]
      refine ⟨⟨?_, nullFree_clean v⟩, nullFreeMembers_cleanMembers tl⟩
      simp [isNullB_clean, h]

theorem nullFreeElems_cleanElems :
    ∀ xs, nullFreeElems (cleanElems xs) = true
  | [] => rfl
  | v :: tl => by
    by_cases h : isNullB v = true
    · simpa [cleanElems, h] using nullFreeElems_cleanElems tl
    · simp only [cleanElems, h, Bool.false_eq_true, not_false_iff, if_false,
        nullFreeElems, Bool.and_eq_true]
      refine ⟨⟨?_, nullFree_clean v⟩, nullFreeElems_cleanElems tl⟩
      simp [isNullB_clean, h]

end

mutual

theorem clean_of_nullFree : ∀ v, nullFree v = true → clean_none_values v = v
  | .null, _ => rfl
  | .bool _, _ => rfl
  | .num _, _ => rfl
  | .str _, _ => rfl
  | .arr xs, h => by
    simp only [clean_none_values, JValue.arr.injEq]
    exact cleanElems_of_nullFree xs h
  | .obj kvs, h => by
    simp only [clean_none_values, JValue.obj.injEq]
    exact cleanMembers_of_nullFree kvs h

theorem cleanMembers_of_nullFree :
    ∀ kvs, nullFreeMembers kvs = true → cleanMembers kvs = kvs
  | [], _ => rfl
  | (k, v) :: tl, h => by
    simp only [nullFreeMembers, Bool.and_eq_true] at h
    obtain ⟨⟨hv, hf⟩, ht⟩ := h
    simp only [cleanMembers, Bool.not_eq_true', Bool.not_eq_eq_eq_not] at hv ⊢
    rw [if_neg (by simp_all), clean_of_nullFree v hf, cleanMembers_of_nullFree tl ht]

theorem cleanElems_of_nullFree :
    ∀ xs, nullFreeElems xs = true → cleanElems xs = xs
  | [], _ => rfl
  | v :: tl, h => by
    simp only [nullFreeElems, Bool.and_eq_true] at h
    obtain ⟨⟨hv, hf⟩, ht⟩ := h
    simp only [cleanElems]
    rw [if_neg (by simp_all), clean_of_nullFree v hf, cleanElems_of_nullFree tl ht]

end

theorem clean_idem (v : JValue) :
    clean_none_values (clean_none_values v) = clean_none_values v :=
  clean_of_nullFree _ (nullFree_clean v)

theorem cleanMembers_eq_filter :
    ∀ kvs, cleanMembers kvs
      = (kvs.filter (fun p => !(isNullB p.2))).map
          (fun p => (p.1, clean_none_values p.2))
  | [] => rfl
  | (k, v) :: tl => by
    by_cases h : isNullB v = true <;>
      simp [cleanMembers, h, List.filter, cleanMembers_eq_filter tl]

theorem cleanElems_eq_filter :
    ∀ xs, cleanElems xs
      = (xs.filter (fun e => !(isNullB e))).map clean_none_values
  | [] => rfl
  | v :: tl => by
    by_cases h : isNullB v = true <;>
      simp [cleanElems, h, List.filter, cleanElems_eq_filter tl]

/-! Lemmas about object-member access and in-place update, Python list
indexing, and the evaluator. -/

theorem objLookup_objMapFirst_self (g : JValue → JValue) (k : String) :
    ∀ kvs c, objLookup kvs k = some c →
      objLookup (objMapFirst g k kvs) k = some (g c)
  | [], c => by simp [objLookup]
  | (k0, v0) :: tl, c => by
    by_cases h : k0 = k
    · simp only [objLookup, objMapFirst, h, if_pos, if_true, Option.some.injEq]
      rintro rfl
      rfl
    · simp only [objLookup, objMapFirst, h, if_false, if_neg h]
      exact objLookup_objMapFirst_self g k tl c

theorem objLookup_append_right (k : String) :
    ∀ kvs l, objLookup kvs k = none → objLookup (kvs ++ l) k = objLookup l k
  | [], l => by simp [objLookup]
  | (k0, v0) :: tl, l => by
    by_cases h : k0 = k <;>
      simp only [objLookup, h, if_pos, if_neg, List.cons_append, reduceCtorEq,
        if_true, if_false] <;> intro hh
    · exact absurd hh (by simp)
    · exact objLookup_append_right k tl l hh

theorem objLookup_objSet_self (kvs : List (String × JValue)) (k : String)
    (v : JValue) : objLookup (objSet kvs k v) k = some v := by
  unfold objSet
  by_cases h : (objLookup kvs k).isSome
  · rw [if_pos h]
    obtain ⟨c, hc⟩ := Option.isSome_iff_exists.mp h
    exact objLookup_objMapFirst_self _ k kvs c hc
  · rw [if_neg h]
    rw [objLookup_append_right k kvs _ (Option.not_isSome_iff_eq_none.mp h)]
    simp [objLookup]

theorem pyIdx_lt (len : Nat) (i : Int) (n : Nat) :
    pyIdx len i = some n → n < len := by
  unfold pyIdx
  by_cases h0 : 0 ≤ i
  · rw [if_pos h0]
    by_cases h1 : i < (len : Int)
    · rw [if_pos h1]; intro h; cases h; omega
    · rw [if_neg h1]; intro h; cases h
  · rw [if_neg h0]
    by_cases h1 : 0 ≤ (len : Int) + i
    · rw [if_pos h1]; intro h; cases h; omega
    · rw [if_neg h1]; intro h; cases h

theorem getD_set_self (xs : List JValue) (n : Nat) (a d : JValue)
    (h : n < xs.length) : (xs.set n a).getD n d = a := by
  rw [List.getD_eq_getElem?_getD]
  rw [List.getElem?_set_self' (l := xs)]
  rw [List.getElem?_eq_getElem h]
  rfl

theorem jpFind_append (s1 : List Selector) :
    ∀ (s2 : List Selector) (v : JValue),
      jpFind (s1 ++ s2) v = (jpFind s1 v).flatMap (jpFind s2) := by
  induction s1 with
  | nil => intro s2 v; simp [jpFind]
  | cons s rest ih =>
    intro s2 v
    simp only [List.cons_append, jpFind, List.flatMap_assoc]
    exact List.flatMap_congr (fun c _ => ih s2 c)

theorem find_jpMut_const :
    ∀ (sels : List Selector) (v newV : JValue),
      (∀ s ∈ sels, isFI s = true) → jpFind sels v ≠ [] →
      jpFind sels (jpMut (fun _ => newV) sels v) = [newV]
  | [], v, newV, _, _ => by simp [jpFind, jpMut]
  | .field k :: rest, v, newV, hfi, hne => by
    have hfi' : ∀ s ∈ rest, isFI s = true := fun s hs => hfi s (by simp [hs])
    cases v with
    | obj kvs =>
      cases hl : objLookup kvs k with
      | none => simp [jpFind, selectOne, hl] at hne
      | some c =>
        have hcne : jpFind rest c ≠ [] := by
          simpa [jpFind, selectOne, hl] using hne
        simp only [jpMut, mutStep, hl]
        simp only [jpFind, selectOne,
          objLookup_objMapFirst_self (jpMut (fun _ => newV) rest) k kvs c hl,
          Option.toList_some, List.flatMap_cons, List.flatMap_nil,
          List.append_nil]
        exact find_jpMut_const rest c newV hfi' hcne
    | null => simp [jpFind, selectOne] at hne
    | bool b => simp [jpFind, selectOne] at hne
    | num n => simp [jpFind, selectOne] at hne
    | str s => simp [jpFind, selectOne] at hne
    | arr xs => simp [jpFind, selectOne] at hne
  | .index i :: rest, v, newV, hfi, hne => by
    have hfi' : ∀ s ∈ rest, isFI s = true := fun s hs => hfi s (by simp [hs])
    cases v with
    | arr xs =>
      cases hn : pyIdx xs.length i with
      | none => simp [jpFind, selectOne, hn] at hne
      | some n =>
        have hlt : n < xs.length := pyIdx_lt _ _ _ hn
        have hcne : jpFind rest (xs.getD n .null) ≠ [] := by
          simpa [jpFind, selectOne, hn] using hne
        simp only [jpMut, mutStep, hn]
        have hlen : (xs.set n (jpMut (fun _ => newV) rest (xs.getD n .null))).length
            = xs.length := by simp
        simp only [jpFind, selectOne, hlen, hn,
          getD_set_self xs n _ .null hlt, List.flatMap_cons, List.flatMap_nil,
          List.append_nil]
        exact find_jpMut_const rest (xs.getD n .null) newV hfi' hcne
    | null => simp [jpFind, selectOne] at hne
    | bool b => simp [jpFind, selectOne] at hne
    | num n => simp [jpFind, selectOne] at hne
    | str s => simp [jpFind, selectOne] at hne
    | obj kvs => simp [jpFind, selectOne] at hne
  | .wild :: rest, v, newV, hfi, hne => by
    have : isFI .wild = true := hfi _ (by simp)
    simp [isFI] at this
  | .rd :: rest, v, newV, hfi, hne => by
    have : isFI .rd = true := hfi _ (by simp)
    simp [isFI] at this
  | .slice a b :: rest, v, newV, hfi, hne => by
    have : isFI (.slice a b) = true := hfi _ (by simp)
    simp [isFI] at this
  | .filt f op lit :: rest, v, newV, hfi, hne => by
    have : isFI (.filt f op lit) = true := hfi _ (by simp)
    simp [isFI] at this

theorem padSet_find (xs : List JValue) (i : Int) (newV : JValue)
    (ys : List JValue) (h : padSet xs i newV = .ok ys) :
    jpFind [.index i] (.arr ys) = [newV] := by
  unfold padSet at h
  cases hn : pyIdx (padTo xs i .null).length i with
  | none => rw [hn] at h; exact absurd h (by simp)
  | some n =>
    rw [hn] at h
    have hys : ys = (padTo xs i .null).set n newV := by
      cases h; rfl
    have hlt : n < (padTo xs i .null).length := pyIdx_lt _ _ _ hn
    subst hys
    simp only [jpFind, selectOne, List.length_set, hn,
      getD_set_self _ n _ .null hlt, List.flatMap_cons, List.flatMap_nil,
      List.append_nil]

theorem padDescend_shape (xs : List JValue) (i : Int) (n : Nat)
    (ys : List JValue) (h : padDescend xs i = .ok (n, ys)) :
    pyIdx ys.length i = some n := by
  unfold padDescend at h
  cases hn : pyIdx (padTo xs i (.obj [])).length i with
  | none => rw [hn] at h; exact absurd h (by simp)
  | some m =>
    rw [hn] at h
    have h1 : m = n ∧ padTo xs i (.obj []) = ys := by
      cases h; exact ⟨rfl, rfl⟩
    obtain ⟨rfl, rfl⟩ := h1
    exact hn

theorem find_set_cons (i : Int) (sels : List Selector) (ys : List JValue)
    (n : Nat) (c : JValue) (hn : pyIdx ys.length i = some n) :
    jpFind (.index i :: sels) (.arr (ys.set n c)) = jpFind sels c := by
  have hlt : n < ys.length := pyIdx_lt _ _ _ hn
  simp only [jpFind, selectOne, List.length_set, hn,
    getD_set_self ys n c .null hlt, List.flatMap_cons, List.flatMap_nil,
    List.append_nil]

theorem find_objSet_cons (k : String) (sels : List Selector)
    (kvs : List (String × JValue)) (c : JValue) :
    jpFind (.field k :: sels) (.obj (objSet kvs k c)) = jpFind sels c := by
  simp only [jpFind, selectOne, objLookup_objSet_self, Option.toList_some,
    List.flatMap_cons, List.flatMap_nil, List.append_nil]

theorem bindE_ok {α β : Type} (a : α) (f : α → Except PErr β) :
    (Bind.bind (Except.ok a) f) = f a := rfl

theorem bindE_err {α β : Type} (e : PErr) (f : α → Except PErr β) :
    (Bind.bind (Except.error e : Except PErr α) f) = Except.error e := rfl

theorem find_create_path :
    ∀ (comps : List Component) (v newV out : JValue),
      create_path v comps newV = .ok out →
      jpFind (selectorsOf comps) out = [newV]
  | [], v, newV, out => by simp [create_path]
  | [⟨key, isA, idx⟩], v, newV, out => by
    intro h
    cases isA with
    | false =>
      simp only [create_path] at h
      rw [if_neg (by simp)] at h
      cases hkv : asObj v with
      | error e => rw [hkv, bindE_err] at h; exact absurd h (by simp)
      | ok kvs =>
        rw [hkv, bindE_ok] at h
        simp only [Except.ok.injEq] at h
        subst h
        have hsel : selectorsOf [(⟨key, false, idx⟩ : Component)]
            = [.field key] := by simp [selectorsOf, selectorsOfComp]
        rw [hsel, find_objSet_cons]
        rfl
    | true =>
      by_cases hk : key = ""
      · subst hk
        simp only [create_path] at h
        rw [if_pos (by simp), if_pos (by simp)] at h
        cases hkv : asArr v with
        | error e => rw [hkv, bindE_err] at h; exact absurd h (by simp)
        | ok xs =>
          rw [hkv, bindE_ok] at h
          cases hps : padSet xs idx newV with
          | error e => rw [hps, bindE_err] at h; exact absurd h (by simp)
          | ok ys =>
            rw [hps, bindE_ok] at h
            simp only [Except.ok.injEq] at h
            subst h
            have hsel : selectorsOf [(⟨"", true, idx⟩ : Component)]
                = [.index idx] := by simp [selectorsOf, selectorsOfComp]
            rw [hsel]
            exact padSet_find xs idx newV ys hps
      · simp only [create_path] at h
        rw [if_pos (by simp), if_neg (by simpa using hk)] at h
        cases hkv : asObj v with
        | error e => rw [hkv, bindE_err] at h; exact absurd h (by simp)
        | ok kvs =>
          rw [hkv, bindE_ok] at h
          cases hxs : asArr ((objLookup kvs key).getD (.arr [])) with
          | error e => rw [hxs, bindE_err] at h; exact absurd h (by simp)
          | ok xs =>
            rw [hxs, bindE_ok] at h
            cases hps : padSet xs idx newV with
            | error e => rw [hps, bindE_err] at h; exact absurd h (by simp)
            | ok ys =>
              rw [hps, bindE_ok] at h
              simp only [Except.ok.injEq] at h
              subst h
              have hsel : selectorsOf [(⟨key, true, idx⟩ : Component)]
                  = [.field key, .index idx] := by
                simp [selectorsOf, selectorsOfComp, hk]
              rw [hsel, find_objSet_cons]
              exact padSet_find xs idx newV ys hps
  | ⟨key, isA, idx⟩ :: c2 :: rest, v, newV, out => by
    intro h
    cases isA with
    | false =>
      simp only [create_path] at h
      rw [if_neg (by simp)] at h
      cases hkv : asObj v with
      | error e => rw [hkv, bindE_err] at h; exact absurd h (by simp)
      | ok kvs =>
        rw [hkv, bindE_ok] at h
        cases hcp : create_path (childInit kvs key c2) (c2 :: rest) newV with
        | error e => rw [hcp, bindE_err] at h; exact absurd h (by simp)
        | ok child =>
          rw [hcp, bindE_ok] at h
          simp only [Except.ok.injEq] at h
          subst h
          have hsel : selectorsOf ((⟨key, false, idx⟩ : Component) :: c2 :: rest)
              = .field key :: selectorsOf (c2 :: rest) := by
            simp [selectorsOf, selectorsOfComp]
          rw [hsel, find_objSet_cons]
          exact find_create_path (c2 :: rest) _ newV child hcp
    | true =>
      by_cases hk : key = ""
      · subst hk
        simp only [create_path] at h
        rw [if_pos (by simp), if_pos (by simp)] at h
        cases hkv : asArr v with
        | error e => rw [hkv, bindE_err] at h; exact absurd h (by simp)
        | ok xs =>
          rw [hkv, bindE_ok] at h
          cases hpd : padDescend xs idx with
          | error e => rw [hpd, bindE_err] at h; exact absurd h (by simp)
          | ok p =>
            obtain ⟨n, ys⟩ := p
            rw [hpd, bindE_ok] at h
            dsimp only at h
            cases hcp : create_path (ys.getD n .null) (c2 :: rest) newV with
            | error e => rw [hcp, bindE_err] at h; exact absurd h (by simp)
            | ok child =>
              rw [hcp, bindE_ok] at h
              simp only [Except.ok.injEq] at h
              subst h
              have hsel : selectorsOf ((⟨"", true, idx⟩ : Component) :: c2 :: rest)
                  = .index idx :: selectorsOf (c2 :: rest) := by
                simp [selectorsOf, selectorsOfComp]
              rw [hsel,
                find_set_cons idx _ ys n child (padDescend_shape xs idx n ys hpd)]
              exact find_create_path (c2 :: rest) _ newV child hcp
      · simp only [create_path] at h
        rw [if_pos (by simp), if_neg (by simpa using hk)] at h
        cases hkv : asObj v with
        | error e => rw [hkv, bindE_err] at h; exact absurd h (by simp)
        | ok kvs =>
          rw [hkv, bindE_ok] at h
          cases hxs : asArr ((objLookup kvs key).getD (.arr [])) with
          | error e => rw [hxs, bindE_err] at h; exact absurd h (by simp)
          | ok xs =>
            rw [hxs, bindE_ok] at h
            cases hpd : padDescend xs idx with
            | error e => rw [hpd, bindE_err] at h; exact absurd h (by simp)
            | ok p =>
              obtain ⟨n, ys⟩ := p
              rw [hpd, bindE_ok] at h
              dsimp only at h
              cases hcp : create_path (ys.getD n .null) (c2 :: rest) newV with
              | error e => rw [hcp, bindE_err] at h; exact absurd h (by simp)
              | ok child =>
                rw [hcp, bindE_ok] at h
                simp only [Except.ok.injEq] at h
                subst h
                have hsel : selectorsOf ((⟨key, true, idx⟩ : Component) :: c2 :: rest)
                    = .field key :: .index idx :: selectorsOf (c2 :: rest) := by
                  simp [selectorsOf, selectorsOfComp, hk]
                rw [hsel, find_objSet_cons,
                  find_set_cons idx _ ys n child (padDescend_shape xs idx n ys hpd)]
                exact find_create_path (c2 :: rest) _ newV child hcp

theorem selectorsOfComp_ne_nil (c : Component) : selectorsOfComp c ≠ [] := by
  obtain ⟨key, isA, idx⟩ := c
  cases isA <;> by_cases hk : key = "" <;> simp [selectorsOfComp, hk]

theorem selectorsOf_cons (c : Component) (rest : List Component) :
    selectorsOf (c :: rest) = selectorsOfComp c ++ selectorsOf rest := by
  simp [selectorsOf]

theorem specInit_index (kvs : List (String × JValue)) (k : String) (i : Int) :
    specInit kvs k (.index i) = (objLookup kvs k).getD (.arr []) := by
  cases h : objLookup kvs k <;> simp [specInit, h]

theorem childInit_specInit (kvs : List (String × JValue)) (key : String)
    (c2 : Component) (s2 : Selector) (tl : List Selector)
    (h : selectorsOfComp c2 = s2 :: tl) :
    childInit kvs key c2 = specInit kvs key s2 := by
  obtain ⟨k2, isA2, idx2⟩ := c2
  cases hl : objLookup kvs key with
  | some c0 => simp [childInit, specInit, hl]
  | none =>
    cases isA2 with
    | false =>
      simp only [selectorsOfComp, Bool.false_eq_true, if_false,
        List.cons.injEq] at h
      obtain ⟨rfl, -⟩ := h
      simp [childInit, specInit, hl]
    | true =>
      by_cases hk2 : k2 = ""
      · subst hk2
        simp only [selectorsOfComp, if_pos, if_true, List.cons.injEq] at h
        obtain ⟨rfl, -⟩ := h
        simp [childInit, specInit, hl]
      · simp only [selectorsOfComp, if_true, if_neg hk2, List.cons.injEq] at h
        obtain ⟨rfl, -⟩ := h
        simp [childInit, specInit, hl, hk2]

theorem create_path_eq_synthSpec :
    ∀ (comps : List Component) (v newV : JValue),
      create_path v comps newV = synthSpec v (selectorsOf comps) newV
  | [], v, newV => by simp [create_path, selectorsOf, synthSpec]
  | [⟨key, isA, idx⟩], v, newV => by
    cases isA with
    | false =>
      have hsel : selectorsOf [(⟨key, false, idx⟩ : Component)]
          = [.field key] := by simp [selectorsOf, selectorsOfComp]
      rw [hsel]
      simp only [create_path, synthSpec]
      rw [if_neg (by simp)]
    | true =>
      by_cases hk : key = ""
      · subst hk
        have hsel : selectorsOf [(⟨"", true, idx⟩ : Component)]
            = [.index idx] := by simp [selectorsOf, selectorsOfComp]
        rw [hsel]
        simp only [create_path, synthSpec]
        rw [if_pos (by simp), if_pos (by simp)]
      · have hsel : selectorsOf [(⟨key, true, idx⟩ : Component)]
            = [.field key, .index idx] := by
          simp [selectorsOf, selectorsOfComp, hk]
        rw [hsel]
        simp only [create_path, synthSpec]
        rw [if_pos (by simp), if_neg (by simpa using hk)]
        cases hkv : asObj v with
        | error e => rw [bindE_err, bindE_err]
        | ok kvs =>
          rw [bindE_ok, bindE_ok, specInit_index]
          cases hxs : asArr ((objLookup kvs key).getD (.arr [])) with
          | error e => rw [bindE_err, bindE_err, bindE_err]
          | ok xs =>
            rw [bindE_ok, bindE_ok]
            cases hps : padSet xs idx newV with
            | error e => rw [bindE_err, bindE_err, bindE_err]
            | ok ys => rw [bindE_ok, bindE_ok, bindE_ok]
  | ⟨key, isA, idx⟩ :: c2 :: rest, v, newV => by
    have hsr : selectorsOf (c2 :: rest)
        = selectorsOfComp c2 ++ selectorsOf rest := selectorsOf_cons c2 rest
    cases hc2 : selectorsOfComp c2 with
    | nil => exact absurd hc2 (selectorsOfComp_ne_nil c2)
    | cons s2 tl =>
      have hsr2 : selectorsOf (c2 :: rest) = s2 :: (tl ++ selectorsOf rest) := by
        rw [hsr, hc2]; rfl
      cases isA with
      | false =>
        have hsel : selectorsOf ((⟨key, false, idx⟩ : Component) :: c2 :: rest)
            = .field key :: s2 :: (tl ++ selectorsOf rest) := by
          rw [selectorsOf_cons, hsr2]
          simp [selectorsOfComp]
        rw [hsel]
        simp only [create_path, synthSpec]
        rw [if_neg (by simp)]
        cases hkv : asObj v with
        | error e => rw [bindE_err, bindE_err]
        | ok kvs =>
          rw [bindE_ok, bindE_ok]
          rw [childInit_specInit kvs key c2 s2 tl hc2]
          rw [create_path_eq_synthSpec (c2 :: rest) (specInit kvs key s2) newV,
            hsr2]
      | true =>
        by_cases hk : key = ""
        · subst hk
          have hsel : selectorsOf ((⟨"", true, idx⟩ : Component) :: c2 :: rest)
              = .index idx :: s2 :: (tl ++ selectorsOf rest) := by
            rw [selectorsOf_cons, hsr2]
            simp [selectorsOfComp]
          rw [hsel]
          simp only [create_path, synthSpec]
          rw [if_pos (by simp), if_pos (by simp)]
          cases hkv : asArr v with
          | error e => rw [bindE_err, bindE_err]
          | ok xs =>
            rw [bindE_ok, bindE_ok]
            cases hpd : padDescend xs idx with
            | error e => rw [bindE_err, bindE_err]
            | ok p =>
              rw [bindE_ok, bindE_ok]
              rw [create_path_eq_synthSpec (c2 :: rest) ((p.2).getD p.1 .null) newV,
                hsr2]
        · have hsel : selectorsOf ((⟨key, true, idx⟩ : Component) :: c2 :: rest)
              = .field key :: .index idx :: s2 :: (tl ++ selectorsOf rest) := by
            rw [selectorsOf_cons, hsr2]
            simp [selectorsOfComp, hk]
          rw [hsel]
          simp only [create_path, synthSpec]
          rw [if_pos (by simp), if_neg (by simpa using hk)]
          cases hkv : asObj v with
          | error e => rw [bindE_err, bindE_err]
          | ok kvs =>
            rw [bindE_ok, bindE_ok, specInit_index]
            cases hxs : asArr ((objLookup kvs key).getD (.arr [])) with
            | error e => rw [bindE_err, bindE_err, bindE_err]
            | ok xs =>
              rw [bindE_ok, bindE_ok]
              cases hpd : padDescend xs idx with
              | error e => rw [bindE_err, bindE_err, bindE_err]
              | ok p =>
                rw [bindE_ok, bindE_ok]
                rw [create_path_eq_synthSpec (c2 :: rest) ((p.2).getD p.1 .null) newV,
                  hsr2]
                cases hsy : synthSpec ((p.2).getD p.1 .null)
                    (s2 :: (tl ++ selectorsOf rest)) newV with
                | error e => rw [bindE_err, bindE_err, bindE_err]
                | ok child => rw [bindE_ok, bindE_ok, bindE_ok]

theorem sizeOf_objLookup_lt (k : String) :
    ∀ (kvs : List (String × JValue)) (c : JValue), objLookup kvs k = some c →
      sizeOf c < sizeOf (JValue.obj kvs)
  | [], c => by simp [objLookup]
  | (k0, v0) :: tl, c => by
    by_cases h : k0 = k
    · simp only [objLookup, h, if_pos, if_true, Option.some.injEq]
      rintro rfl
      simp [JValue.obj.sizeOf_spec, Prod.mk.sizeOf_spec]
      omega
    · simp only [objLookup, h, if_false, if_neg h]
      intro hh
      have := sizeOf_objLookup_lt k tl c hh
      simp only [JValue.obj.sizeOf_spec, List.cons.sizeOf_spec] at this ⊢
      omega

theorem lookup_none_of_not_keyMem (k : String) :
    ∀ kvs : List (String × JValue), keyMem k (kvs.map Prod.fst) = false →
      objLookup kvs k = none
  | [] => by simp [objLookup]
  | (k0, v0) :: tl => by
    simp only [List.map_cons, keyMem, Bool.or_eq_false_iff,
      decide_eq_false_iff_not]
    intro ⟨h1, h2⟩
    simp only [objLookup, if_neg h1]
    exact lookup_none_of_not_keyMem k tl h2

theorem lookup_cleanMembers_none (k : String) :
    ∀ kvs, objLookup kvs k = none → objLookup (cleanMembers kvs) k = none
  | [] => by simp [cleanMembers]
  | (k0, v0) :: tl => by
    by_cases h : k0 = k
    · simp [objLookup, h]
    · simp only [objLookup, h, if_false, if_neg h]
      intro hh
      by_cases hn : isNullB v0 = true
      · simp only [cleanMembers, hn, if_pos, if_true]
        exact lookup_cleanMembers_none k tl hh
      · simp only [cleanMembers, hn, if_neg, if_false, Bool.false_eq_true,
          objLookup, h]
        exact lookup_cleanMembers_none k tl hh

theorem lookup_clean_mapFirst_null (g : JValue → JValue) (k : String) :
    ∀ kvs c, distinctKeys (kvs.map Prod.fst) = true →
      objLookup kvs k = some c → isNullB (g c) = true →
      objLookup (cleanMembers (objMapFirst g k kvs)) k = none
  | [], c => by simp [objLookup]
  | (k0, v0) :: tl, c => by
    intro hd hl hn
    simp only [List.map_cons, distinctKeys, Bool.and_eq_true,
      Bool.not_eq_true'] at hd
    obtain ⟨hnc, hdt⟩ := hd
    by_cases h : k0 = k
    · subst h
      simp only [objLookup, if_pos, if_true, Option.some.injEq] at hl
      subst hl
      simp only [objMapFirst, if_pos, if_true, cleanMembers, hn]
      exact lookup_cleanMembers_none k0 tl (lookup_none_of_not_keyMem k0 tl hnc)
    · simp only [objLookup, h, if_false, if_neg h] at hl
      simp only [objMapFirst, h, if_false, if_neg h]
      by_cases hv : isNullB v0 = true
      · simp only [cleanMembers, hv, if_pos, if_true]
        exact lookup_clean_mapFirst_null g k tl c hdt hl hn
      · simp only [cleanMembers, hv, if_false, if_neg, Bool.false_eq_true,
          objLookup, h]
        exact lookup_clean_mapFirst_null g k tl c hdt hl hn

theorem lookup_clean_mapFirst_some (g : JValue → JValue) (k : String) :
    ∀ kvs c, objLookup kvs k = some c → isNullB (g c) = false →
      objLookup (cleanMembers (objMapFirst g k kvs)) k
        = some (clean_none_values (g c))
  | [], c => by simp [objLookup]
  | (k0, v0) :: tl, c => by
    intro hl hn
    by_cases h : k0 = k
    · subst h
      simp only [objLookup, if_pos, if_true, Option.some.injEq] at hl
      subst hl
      simp [objMapFirst, cleanMembers, hn, objLookup]
    · simp only [objLookup, h, if_false, if_neg h] at hl
      simp only [objMapFirst, h, if_false, if_neg h]
      by_cases hv : isNullB v0 = true
      · simp only [cleanMembers, hv, if_pos, if_true]
        exact lookup_clean_mapFirst_some g k tl c hl hn
      · simp only [cleanMembers, hv, if_false, if_neg, Bool.false_eq_true,
          objLookup, h]
        exact lookup_clean_mapFirst_some g k tl c hl hn

theorem wf_distinct (kvs : List (String × JValue))
    (h : wfB (.obj kvs) = true) : distinctKeys (kvs.map Prod.fst) = true := by
  simp only [wfB, Bool.and_eq_true] at h
  exact h.1

theorem wf_member (k : String) :
    ∀ kvs c, wfB (.obj kvs) = true → objLookup kvs k = some c → wfB c = true
  | [], c => by simp [objLookup]
  | (k0, v0) :: tl, c => by
    intro hwf hl
    simp only [wfB, wfMembers, Bool.and_eq_true, List.map_cons,
      distinctKeys] at hwf
    obtain ⟨⟨hnc, hdt⟩, hv0, htl⟩ := hwf
    by_cases h : k0 = k
    · simp only [objLookup, h, if_pos, if_true, Option.some.injEq] at hl
      subst hl
      exact hv0
    · simp only [objLookup, h, if_false, if_neg h] at hl
      exact wf_member k tl c (by simp [wfB, hdt, htl, Bool.and_eq_true]) hl

theorem mut_field_not_null (g : JValue → JValue) (k : String) (rest : List Selector)
    (c : JValue) (hc : isNullB c = false) :
    isNullB (jpMut g (.field k :: rest) c) = false := by
  cases c <;> simp_all [jpMut, mutStep, isNullB]
  case obj kvs => cases objLookup kvs k <;> simp [isNullB]

theorem find_clean_mut_fields :
    ∀ (k : String) (rest : List Selector) (v : JValue),
      wfB v = true → (∀ s ∈ rest, isFieldSel s = true) →
      jpFind (.field k :: rest)
        (clean_none_values (jpMut (fun _ => .null) (.field k :: rest) v)) = []
  | k, rest, .null, _, _ => by
    simp [jpMut, mutStep, clean_none_values, jpFind, selectOne]
  | k, rest, .bool b, _, _ => by
    simp [jpMut, mutStep, clean_none_values, jpFind, selectOne]
  | k, rest, .num n, _, _ => by
    simp [jpMut, mutStep, clean_none_values, jpFind, selectOne]
  | k, rest, .str s, _, _ => by
    simp [jpMut, mutStep, clean_none_values, jpFind, selectOne]
  | k, rest, .arr xs, _, _ => by
    simp [jpMut, mutStep, clean_none_values, jpFind, selectOne]
  | k, rest, .obj kvs, hwf, hrest => by
    simp only [jpMut, mutStep]
    cases hl : objLookup kvs k with
    | none =>
      simp only [clean_none_values, jpFind, selectOne,
        lookup_cleanMembers_none k kvs hl, Option.toList_none, List.flatMap_nil]
    | some c =>
      by_cases hn : isNullB (jpMut (fun _ => .null) rest c) = true
      · simp only [clean_none_values, jpFind, selectOne,
          lookup_clean_mapFirst_null _ k kvs c (wf_distinct kvs hwf) hl hn,
          Option.toList_none, List.flatMap_nil]
      · replace hn : isNullB (jpMut (fun _ => .null) rest c) = false := by
          simpa using hn
        simp only [clean_none_values, jpFind, selectOne,
          lookup_clean_mapFirst_some _ k kvs c hl hn,
          Option.toList_some, List.flatMap_cons, List.flatMap_nil,
          List.append_nil]
        cases rest with
        | nil => simp [jpMut, isNullB] at hn
        | cons r rs =>
          cases r with
          | field k2 =>
            have hwc : wfB c = true := wf_member k kvs c hwf hl
            have hlt := sizeOf_objLookup_lt k kvs c hl
            exact find_clean_mut_fields k2 rs c hwc
              (fun s hs => hrest s (by simp [hs]))
          | index i =>
            have : isFieldSel (.index i) = true := hrest _ (by simp)
            simp [isFieldSel] at this
          | wild =>
            have : isFieldSel .wild = true := hrest _ (by simp)
            simp [isFieldSel] at this
          | rd =>
            have : isFieldSel .rd = true := hrest _ (by simp)
            simp [isFieldSel] at this
          | slice a b =>
            have : isFieldSel (.slice a b) = true := hrest _ (by simp)
            simp [isFieldSel] at this
          | filt f op lit =>
            have : isFieldSel (.filt f op lit) = true := hrest _ (by simp)
            simp [isFieldSel] at this
termination_by _ _ v => sizeOf v
decreasing_by
  simp_wf
  have h2 : sizeOf (JValue.obj kvs) = 1 + sizeOf kvs := by simp
  omega

theorem cleanMembers_length :
    ∀ kvs : List (String × JValue),
      (cleanMembers kvs).length
        = kvs.length - (kvs.filter (fun p => isNullB p.2)).length
  | [] => rfl
  | (k, v) :: tl => by
    have ht := cleanMembers_length tl
    have hle : (tl.filter (fun p => isNullB p.2)).length ≤ tl.length :=
      List.length_filter_le _ _
    by_cases h : isNullB v = true
    · simp [cleanMembers, h, List.filter, ht]
    · simp [cleanMembers, h, List.filter, ht]
      omega

/-! Lemmas toward delete idempotence for structural (Field/Wildcard/
RecursiveDescent) paths: the tombstone pass relates a tree to a
null-substituted copy (`nsubB`), matches of a null-substituted copy of a
tree with only null matches are null again, and compaction preserves the
all-matches-null property on well-formed trees. -/

theorem sizeOf_snd_lt_members :
    ∀ (kvs : List (String × JValue)) (c : JValue), c ∈ kvs.map Prod.snd →
      sizeOf c < sizeOf kvs
  | [], c => by simp
  | (k0, v0) :: tl, c => by
    simp only [List.map_cons, List.mem_cons]
    rintro (rfl | h)
    · simp only [List.cons.sizeOf_spec, Prod.mk.sizeOf_spec]
      omega
    · have := sizeOf_snd_lt_members tl c h
      simp only [List.cons.sizeOf_spec]
      omega

theorem sizeOf_child_lt (v : JValue) (c : JValue) (h : c ∈ childrenOf v) :
    sizeOf c < sizeOf v := by
  cases v with
  | obj kvs =>
    have h2 := sizeOf_snd_lt_members kvs c h
    have h3 : sizeOf (JValue.obj kvs) = 1 + sizeOf kvs := by simp
    omega
  | arr xs =>
    have hx : c ∈ xs := h
    have h2 := List.sizeOf_lt_of_mem hx
    have h3 : sizeOf (JValue.arr xs) = 1 + sizeOf xs := by simp
    omega
  | null => simp [childrenOf] at h
  | bool b => simp [childrenOf] at h
  | num n => simp [childrenOf] at h
  | str s => simp [childrenOf] at h

theorem self_mem_descendantsSelf (v : JValue) : v ∈ descendantsSelf v := by
  cases v <;> simp [descendantsSelf]

theorem mem_descMembers :
    ∀ (kvs : List (String × JValue)) (d : JValue),
      d ∈ descMembers kvs ↔
        ∃ c, c ∈ kvs.map Prod.snd ∧ d ∈ descendantsSelf c
  | [], d => by simp [descMembers]
  | (k0, v0) :: tl, d => by
    simp only [descMembers, List.mem_append, List.map_cons, List.mem_cons]
    constructor
    · rintro (h | h)
      · exact ⟨v0, Or.inl rfl, h⟩
      · obtain ⟨c, hc, hd⟩ := (mem_descMembers tl d).1 h
        exact ⟨c, Or.inr hc, hd⟩
    · rintro ⟨c, (rfl | hc), hd⟩
      · exact Or.inl hd
      · exact Or.inr ((mem_descMembers tl d).2 ⟨c, hc, hd⟩)

theorem mem_descElems :
    ∀ (xs : List JValue) (d : JValue),
      d ∈ descElems xs ↔ ∃ c, c ∈ xs ∧ d ∈ descendantsSelf c
  | [], d => by simp [descElems]
  | (x0 : JValue) :: tl, d => by
    simp only [descElems, List.mem_append, List.mem_cons]
    constructor
    · rintro (h | h)
      · exact ⟨x0, Or.inl rfl, h⟩
      · obtain ⟨c, hc, hd⟩ := (mem_descElems tl d).1 h
        exact ⟨c, Or.inr hc, hd⟩
    · rintro ⟨c, (rfl | hc), hd⟩
      · exact Or.inl hd
      · exact Or.inr ((mem_descElems tl d).2 ⟨c, hc, hd⟩)

theorem mem_descendantsSelf (v d : JValue) :
    d ∈ descendantsSelf v ↔
      d = v ∨ ∃ c, c ∈ childrenOf v ∧ d ∈ descendantsSelf c := by
  cases v with
  | obj kvs =>
    simp [descendantsSelf, childrenOf, mem_descMembers]
  | arr xs =>
    simp [descendantsSelf, childrenOf, mem_descElems]
  | null => simp [descendantsSelf, childrenOf]
  | bool b => simp [descendantsSelf, childrenOf]
  | num n => simp [descendantsSelf, childrenOf]
  | str s => simp [descendantsSelf, childrenOf]

theorem nsub_null_right (a : JValue) : nsubB a JValue.null = true := by
  cases a <;> rfl

mutual

theorem nsub_refl : ∀ v : JValue, nsubB v v = true
  | .null => rfl
  | .bool b => by simp [nsubB]
  | .num n => by simp [nsubB]
  | .str s => by simp [nsubB]
  | .obj kvs => by simp only [nsubB]; exact nsubMembers_refl kvs
  | .arr xs => by simp only [nsubB]; exact nsubElems_refl xs

theorem nsubMembers_refl : ∀ kvs : List (String × JValue),
    nsubMembers kvs kvs = true
  | [] => rfl
  | (k, v) :: tl => by
    simp [nsubMembers, nsub_refl v, nsubMembers_refl tl]

theorem nsubElems_refl : ∀ xs : List JValue, nsubElems xs xs = true
  | [] => rfl
  | v :: tl => by
    simp only [nsubElems, Bool.and_eq_true]
    exact ⟨nsub_refl v, nsubElems_refl tl⟩

end

theorem nsub_null_left : ∀ c : JValue, nsubB JValue.null c = true →
    c = JValue.null := by
  intro c
  cases c <;> simp [nsubB]

theorem nsub_obj_left (kvs : List (String × JValue)) :
    ∀ c : JValue, nsubB (.obj kvs) c = true →
      c = JValue.null ∨ ∃ kvs2, c = .obj kvs2 ∧ nsubMembers kvs kvs2 = true := by
  intro c
  cases c <;> simp [nsubB]

theorem nsub_arr_left (xs : List JValue) :
    ∀ c : JValue, nsubB (.arr xs) c = true →
      c = JValue.null ∨ ∃ xs2, c = .arr xs2 ∧ nsubElems xs xs2 = true := by
  intro c
  cases c <;> simp [nsubB]

theorem nsub_bool_left (b : Bool) :
    ∀ c : JValue, nsubB (.bool b) c = true →
      c = JValue.null ∨ c = .bool b := by
  intro c
  cases c <;> simp_all [nsubB]

theorem nsub_num_left (n : Int) :
    ∀ c : JValue, nsubB (.num n) c = true →
      c = JValue.null ∨ c = .num n := by
  intro c
  cases c <;> simp_all [nsubB]

theorem nsub_str_left (s : String) :
    ∀ c : JValue, nsubB (.str s) c = true →
      c = JValue.null ∨ c = .str s := by
  intro c
  cases c <;> simp_all [nsubB]

theorem nsub_obj_right (kvs2 : List (String × JValue)) :
    ∀ w : JValue, nsubB w (.obj kvs2) = true →
      ∃ kvs, w = .obj kvs ∧ nsubMembers kvs kvs2 = true := by
  intro w
  cases w <;> simp [nsubB]

theorem nsub_arr_right (xs2 : List JValue) :
    ∀ w : JValue, nsubB w (.arr xs2) = true →
      ∃ xs, w = .arr xs ∧ nsubElems xs xs2 = true := by
  intro w
  cases w <;> simp [nsubB]

theorem nsub_bool_right (bb : Bool) :
    ∀ w : JValue, nsubB w (.bool bb) = true → w = .bool bb := by
  intro w
  cases w <;> simp [nsubB]

theorem nsub_num_right (nn : Int) :
    ∀ w : JValue, nsubB w (.num nn) = true → w = .num nn := by
  intro w
  cases w <;> simp [nsubB]

theorem nsub_str_right (ss : String) :
    ∀ w : JValue, nsubB w (.str ss) = true → w = .str ss := by
  intro w
  cases w <;> simp [nsubB]

mutual

theorem nsub_trans : ∀ a b c : JValue,
    nsubB a b = true → nsubB b c = true → nsubB a c = true
  | a, _, .null => fun _ _ => nsub_null_right a
  | a, b, .obj kvs3 => by
    intro h1 h2
    obtain ⟨kvs2, rfl, hm2⟩ := nsub_obj_right kvs3 b h2
    obtain ⟨kvs1, rfl, hm1⟩ := nsub_obj_right kvs2 a h1
    simp only [nsubB]
    exact nsubMembers_trans kvs1 kvs2 kvs3 hm1 hm2
  | a, b, .arr xs3 => by
    intro h1 h2
    obtain ⟨xs2, rfl, he2⟩ := nsub_arr_right xs3 b h2
    obtain ⟨xs1, rfl, he1⟩ := nsub_arr_right xs2 a h1
    simp only [nsubB]
    exact nsubElems_trans xs1 xs2 xs3 he1 he2
  | a, b, .bool bb => by
    intro h1 h2
    rw [nsub_bool_right bb b h2] at h1
    exact h1
  | a, b, .num nn => by
    intro h1 h2
    rw [nsub_num_right nn b h2] at h1
    exact h1
  | a, b, .str ss => by
    intro h1 h2
    rw [nsub_str_right ss b h2] at h1
    exact h1

theorem nsubMembers_trans : ∀ l1 l2 l3 : List (String × JValue),
    nsubMembers l1 l2 = true → nsubMembers l2 l3 = true →
    nsubMembers l1 l3 = true
  | [], [], [] => fun _ _ => rfl
  | (k1, v1) :: tl1, (k2, v2) :: tl2, (k3, v3) :: tl3 => by
    intro h1 h2
    simp only [nsubMembers, Bool.and_eq_true, decide_eq_true_eq] at h1 h2 ⊢
    obtain ⟨⟨hk1, hv1⟩, ht1⟩ := h1
    obtain ⟨⟨hk2, hv2⟩, ht2⟩ := h2
    exact ⟨⟨hk1.trans hk2, nsub_trans v1 v2 v3 hv1 hv2⟩,
      nsubMembers_trans tl1 tl2 tl3 ht1 ht2⟩
  | [], [], (k3, v3) :: tl3 => by
    intro _ h2
    simp [nsubMembers] at h2
  | [], (k2, v2) :: tl2, l3 => by
    intro h1 _
    simp [nsubMembers] at h1
  | (k1, v1) :: tl1, [], l3 => by
    intro h1 _
    simp [nsubMembers] at h1
  | (k1, v1) :: tl1, (k2, v2) :: tl2, [] => by
    intro _ h2
    simp [nsubMembers] at h2

theorem nsubElems_trans : ∀ l1 l2 l3 : List JValue,
    nsubElems l1 l2 = true → nsubElems l2 l3 = true → nsubElems l1 l3 = true
  | [], [], [] => fun _ _ => rfl
  | v1 :: tl1, v2 :: tl2, v3 :: tl3 => by
    intro h1 h2
    simp only [nsubElems, Bool.and_eq_true] at h1 h2 ⊢
    exact ⟨nsub_trans v1 v2 v3 h1.1 h2.1,
      nsubElems_trans tl1 tl2 tl3 h1.2 h2.2⟩
  | [], [], v3 :: tl3 => by
    intro _ h2
    simp [nsubElems] at h2
  | [], v2 :: tl2, l3 => by
    intro h1 _
    simp [nsubElems] at h1
  | v1 :: tl1, [], l3 => by
    intro h1 _
    simp [nsubElems] at h1
  | v1 :: tl1, v2 :: tl2, [] => by
    intro _ h2
    simp [nsubElems] at h2

end

theorem nsubMembers_objMapFirst (f : JValue → JValue)
    (hf : ∀ x, nsubB x (f x) = true) (k : String) :
    ∀ kvs : List (String × JValue),
      nsubMembers kvs (objMapFirst f k kvs) = true
  | [] => rfl
  | (k0, v0) :: tl => by
    by_cases h : k0 = k
    · simp [objMapFirst, h, nsubMembers, hf v0, nsubMembers_refl tl]
    · simp [objMapFirst, h, nsubMembers, nsub_refl v0,
        nsubMembers_objMapFirst f hf k tl]

theorem nsubMembers_mapSnd (f : JValue → JValue)
    (hf : ∀ x, nsubB x (f x) = true) :
    ∀ kvs : List (String × JValue),
      nsubMembers kvs (kvs.map (fun p => (p.1, f p.2))) = true
  | [] => rfl
  | (k0, v0) :: tl => by
    simp [nsubMembers, hf v0, nsubMembers_mapSnd f hf tl]

theorem nsubElems_map (f : JValue → JValue)
    (hf : ∀ x, nsubB x (f x) = true) :
    ∀ xs : List JValue, nsubElems xs (xs.map f) = true
  | [] => rfl
  | x0 :: tl => by
    simp [nsubElems, hf x0, nsubElems_map f hf tl]

theorem nsubElems_set :
    ∀ (xs : List JValue) (n : Nat) (y : JValue),
      nsubB (xs.getD n .null) y = true → nsubElems xs (xs.set n y) = true
  | [], _, y => fun _ => rfl
  | x0 :: tl, 0, y => by
    intro h
    simp only [List.getD_cons_zero] at h
    simp [List.set, nsubElems, h, nsubElems_refl tl]
  | x0 :: tl, n + 1, y => by
    intro h
    simp only [List.getD_cons_succ] at h
    simp [List.set, nsubElems, nsub_refl x0, nsubElems_set tl n y h]

theorem nsubElems_mutIdxFrom (f : JValue → JValue)
    (hf : ∀ x, nsubB x (f x) = true) (p : Nat → Bool) :
    ∀ (n : Nat) (xs : List JValue), nsubElems xs (mutIdxFrom f p n xs) = true
  | _, [] => rfl
  | n, x0 :: tl => by
    by_cases h : p n = true
    · simp [mutIdxFrom, h, nsubElems, hf x0,
        nsubElems_mutIdxFrom f hf p (n + 1) tl]
    · simp [mutIdxFrom, h, nsubElems, nsub_refl x0,
        nsubElems_mutIdxFrom f hf p (n + 1) tl]

mutual

theorem nsub_mutEverywhere (g : JValue → JValue)
    (hg : ∀ x, nsubB x (g x) = true) :
    ∀ v : JValue, nsubB v (mutEverywhere g v) = true
  | .obj kvs => by
    have h1 : nsubB (.obj kvs) (.obj (mutEvMembers g kvs)) = true := by
      simp only [nsubB]
      exact nsub_mutEvMembers g hg kvs
    exact nsub_trans _ _ _ h1 (hg _)
  | .arr xs => by
    have h1 : nsubB (.arr xs) (.arr (mutEvElems g xs)) = true := by
      simp only [nsubB]
      exact nsub_mutEvElems g hg xs
    exact nsub_trans _ _ _ h1 (hg _)
  | .null => hg .null
  | .bool b => hg (.bool b)
  | .num n => hg (.num n)
  | .str s => hg (.str s)

theorem nsub_mutEvMembers (g : JValue → JValue)
    (hg : ∀ x, nsubB x (g x) = true) :
    ∀ kvs : List (String × JValue),
      nsubMembers kvs (mutEvMembers g kvs) = true
  | [] => rfl
  | (k, v) :: tl => by
    simp [mutEvMembers, nsubMembers, nsub_mutEverywhere g hg v,
      nsub_mutEvMembers g hg tl]

theorem nsub_mutEvElems (g : JValue → JValue)
    (hg : ∀ x, nsubB x (g x) = true) :
    ∀ xs : List JValue, nsubElems xs (mutEvElems g xs) = true
  | [] => rfl
  | v :: tl => by
    simp [mutEvElems, nsubElems, nsub_mutEverywhere g hg v,
      nsub_mutEvElems g hg tl]

end

/-- The tombstone pass of a delete relates every tree to its result by
null-substitution, whatever the selectors. -/
theorem nsub_jpMut :
    ∀ (sels : List Selector) (v : JValue),
      nsubB v (jpMut (fun _ => JValue.null) sels v) = true
  | [], v => nsub_null_right v
  | s :: rest, v => by
    have hg : ∀ x, nsubB x (jpMut (fun _ => JValue.null) rest x) = true :=
      fun x => nsub_jpMut rest x
    show nsubB v (mutStep (jpMut (fun _ => JValue.null) rest) s v) = true
    cases s with
    | field k =>
      cases v with
      | obj kvs =>
        simp only [mutStep]
        cases hl : objLookup kvs k with
        | some c =>
          simp only [nsubB]
          exact nsubMembers_objMapFirst _ hg k kvs
        | none => exact nsub_refl _
      | null => exact nsub_refl _
      | bool b => exact nsub_refl _
      | num n => exact nsub_refl _
      | str s => exact nsub_refl _
      | arr xs => exact nsub_refl _
    | index i =>
      cases v with
      | arr xs =>
        simp only [mutStep]
        cases hn : pyIdx xs.length i with
        | some n =>
          simp only [nsubB]
          exact nsubElems_set xs n _ (hg _)
        | none => exact nsub_refl _
      | null => exact nsub_refl _
      | bool b => exact nsub_refl _
      | num n => exact nsub_refl _
      | str s => exact nsub_refl _
      | obj kvs => exact nsub_refl _
    | wild =>
      cases v with
      | obj kvs =>
        simp only [mutStep, nsubB]
        exact nsubMembers_mapSnd _ hg kvs
      | arr xs =>
        simp only [mutStep, nsubB]
        exact nsubElems_map _ hg xs
      | null => exact nsub_refl _
      | bool b => exact nsub_refl _
      | num n => exact nsub_refl _
      | str s => exact nsub_refl _
    | rd => exact nsub_mutEverywhere _ hg v
    | slice a b =>
      cases v with
      | arr xs =>
        simp only [mutStep, nsubB]
        exact nsubElems_mutIdxFrom _ hg _ 0 xs
      | null => exact nsub_refl _
      | bool b2 => exact nsub_refl _
      | num n => exact nsub_refl _
      | str s => exact nsub_refl _
      | obj kvs => exact nsub_refl _
    | filt f op lit =>
      cases v with
      | arr xs =>
        have hg2 : ∀ x, nsubB x
            (if filtTest f op lit x then
              jpMut (fun _ => JValue.null) rest x else x) = true := by
          intro x
          by_cases h : filtTest f op lit x = true
          · simp [h, hg x]
          · simp [h, nsub_refl x]
        simp only [mutStep, nsubB]
        exact nsubElems_map _ hg2 xs
      | null => exact nsub_refl _
      | bool b => exact nsub_refl _
      | num n => exact nsub_refl _
      | str s => exact nsub_refl _
      | obj kvs => exact nsub_refl _

theorem snd_mutEvMembers (g : JValue → JValue) :
    ∀ kvs : List (String × JValue),
      (mutEvMembers g kvs).map Prod.snd
        = (kvs.map Prod.snd).map (mutEverywhere g)
  | [] => rfl
  | (k, v) :: tl => by
    simp [mutEvMembers, snd_mutEvMembers g tl]

theorem mutEvElems_eq_map (g : JValue → JValue) :
    ∀ xs : List JValue, mutEvElems g xs = xs.map (mutEverywhere g)
  | [] => rfl
  | v :: tl => by
    simp [mutEvElems, mutEvElems_eq_map g tl]

theorem snd_mapSnd (f : JValue → JValue) :
    ∀ kvs : List (String × JValue),
      (kvs.map (fun p => (p.1, f p.2))).map Prod.snd
        = (kvs.map Prod.snd).map f
  | [] => rfl
  | (k, v) :: tl => by
    simp [snd_mapSnd f tl]

theorem nsubMembers_lookup :
    ∀ l1 l2 : List (String × JValue), nsubMembers l1 l2 = true →
    ∀ (k : String) (c2 : JValue), objLookup l2 k = some c2 →
      ∃ c, objLookup l1 k = some c ∧ nsubB c c2 = true
  | [], [] => by
    intro _ k c2 h
    simp [objLookup] at h
  | (k1, v1) :: tl1, (k2, v2) :: tl2 => by
    intro h k c2 hl
    simp only [nsubMembers, Bool.and_eq_true, decide_eq_true_eq] at h
    obtain ⟨⟨hk, hv⟩, htl⟩ := h
    subst hk
    by_cases he : k1 = k
    · subst he
      simp only [objLookup, if_true, eq_self_iff_true,
        Option.some.injEq] at hl
      subst hl
      exact ⟨v1, by simp [objLookup], hv⟩
    · simp only [objLookup, if_neg he] at hl ⊢
      exact nsubMembers_lookup tl1 tl2 htl k c2 hl
  | [], (k2, v2) :: tl2 => by
    intro h
    simp [nsubMembers] at h
  | (k1, v1) :: tl1, [] => by
    intro _ k c2 h
    simp [objLookup] at h

theorem nsubMembers_mem :
    ∀ l1 l2 : List (String × JValue), nsubMembers l1 l2 = true →
    ∀ c2 ∈ l2.map Prod.snd, ∃ c ∈ l1.map Prod.snd, nsubB c c2 = true
  | [], [] => by
    intro _ c2 hc2
    simp at hc2
  | (k1, v1) :: tl1, (k2, v2) :: tl2 => by
    intro h c2 hc2
    simp only [nsubMembers, Bool.and_eq_true, decide_eq_true_eq] at h
    obtain ⟨⟨hk, hv⟩, htl⟩ := h
    simp only [List.map_cons, List.mem_cons] at hc2 ⊢
    cases hc2 with
    | inl he =>
      subst he
      exact ⟨v1, Or.inl rfl, hv⟩
    | inr he =>
      obtain ⟨c, hc, hcn⟩ := nsubMembers_mem tl1 tl2 htl c2 he
      exact ⟨c, Or.inr hc, hcn⟩
  | [], (k2, v2) :: tl2 => by
    intro h
    simp [nsubMembers] at h
  | (k1, v1) :: tl1, [] => by
    intro _ c2 hc2
    simp at hc2

theorem nsubElems_mem :
    ∀ l1 l2 : List JValue, nsubElems l1 l2 = true →
    ∀ c2 ∈ l2, ∃ c ∈ l1, nsubB c c2 = true
  | [], [] => by
    intro _ c2 hc2
    simp at hc2
  | v1 :: tl1, v2 :: tl2 => by
    intro h c2 hc2
    simp only [nsubElems, Bool.and_eq_true] at h
    simp only [List.mem_cons] at hc2 ⊢
    cases hc2 with
    | inl he =>
      subst he
      exact ⟨v1, Or.inl rfl, h.1⟩
    | inr he =>
      obtain ⟨c, hc, hcn⟩ := nsubElems_mem tl1 tl2 h.2 c2 he
      exact ⟨c, Or.inr hc, hcn⟩
  | [], v2 :: tl2 => by
    intro h
    simp [nsubElems] at h
  | v1 :: tl1, [] => by
    intro _ c2 hc2
    simp at hc2

mutual

theorem desc_nsub : ∀ w w2 : JValue, nsubB w w2 = true →
    ∀ d2 ∈ descendantsSelf w2, ∃ d, d ∈ descendantsSelf w ∧ nsubB d d2 = true
  | w, .null => by
    intro h d2 hd2
    simp only [descendantsSelf, List.mem_singleton] at hd2
    subst hd2
    exact ⟨w, self_mem_descendantsSelf w, nsub_null_right w⟩
  | w, .obj kvs2 => by
    intro h d2 hd2
    obtain ⟨kvs, rfl, hm⟩ := nsub_obj_right kvs2 w h
    simp only [descendantsSelf, List.mem_cons] at hd2
    cases hd2 with
    | inl he =>
      subst he
      exact ⟨.obj kvs, self_mem_descendantsSelf _, h⟩
    | inr he =>
      obtain ⟨d, hd, hn⟩ := desc_nsubMembers kvs kvs2 hm d2 he
      refine ⟨d, ?_, hn⟩
      simp only [descendantsSelf, List.mem_cons]
      exact Or.inr hd
  | w, .arr xs2 => by
    intro h d2 hd2
    obtain ⟨xs, rfl, hm⟩ := nsub_arr_right xs2 w h
    simp only [descendantsSelf, List.mem_cons] at hd2
    cases hd2 with
    | inl he =>
      subst he
      exact ⟨.arr xs, self_mem_descendantsSelf _, h⟩
    | inr he =>
      obtain ⟨d, hd, hn⟩ := desc_nsubElems xs xs2 hm d2 he
      refine ⟨d, ?_, hn⟩
      simp only [descendantsSelf, List.mem_cons]
      exact Or.inr hd
  | w, .bool b => by
    intro h d2 hd2
    have hw := nsub_bool_right b w h
    subst hw
    simp only [descendantsSelf, List.mem_singleton] at hd2
    subst hd2
    exact ⟨.bool b, self_mem_descendantsSelf _, nsub_refl _⟩
  | w, .num n => by
    intro h d2 hd2
    have hw := nsub_num_right n w h
    subst hw
    simp only [descendantsSelf, List.mem_singleton] at hd2
    subst hd2
    exact ⟨.num n, self_mem_descendantsSelf _, nsub_refl _⟩
  | w, .str s => by
    intro h d2 hd2
    have hw := nsub_str_right s w h
    subst hw
    simp only [descendantsSelf, List.mem_singleton] at hd2
    subst hd2
    exact ⟨.str s, self_mem_descendantsSelf _, nsub_refl _⟩

theorem desc_nsubMembers : ∀ l1 l2 : List (String × JValue),
    nsubMembers l1 l2 = true →
    ∀ d2 ∈ descMembers l2, ∃ d, d ∈ descMembers l1 ∧ nsubB d d2 = true
  | [], [] => by
    intro _ d2 hd2
    simp [descMembers] at hd2
  | (k1, v1) :: tl1, (k2, v2) :: tl2 => by
    intro h d2 hd2
    simp only [nsubMembers, Bool.and_eq_true, decide_eq_true_eq] at h
    obtain ⟨⟨hk, hv⟩, htl⟩ := h
    simp only [descMembers, List.mem_append] at hd2
    cases hd2 with
    | inl h2 =>
      obtain ⟨d, hd, hn⟩ := desc_nsub v1 v2 hv d2 h2
      refine ⟨d, ?_, hn⟩
      simp only [descMembers, List.mem_append]
      exact Or.inl hd
    | inr h2 =>
      obtain ⟨d, hd, hn⟩ := desc_nsubMembers tl1 tl2 htl d2 h2
      refine ⟨d, ?_, hn⟩
      simp only [descMembers, List.mem_append]
      exact Or.inr hd
  | [], (k2, v2) :: tl2 => by
    intro h
    simp [nsubMembers] at h
  | (k1, v1) :: tl1, [] => by
    intro _ d2 hd2
    simp [descMembers] at hd2

theorem desc_nsubElems : ∀ l1 l2 : List JValue,
    nsubElems l1 l2 = true →
    ∀ d2 ∈ descElems l2, ∃ d, d ∈ descElems l1 ∧ nsubB d d2 = true
  | [], [] => by
    intro _ d2 hd2
    simp [descElems] at hd2
  | v1 :: tl1, v2 :: tl2 => by
    intro h d2 hd2
    simp only [nsubElems, Bool.and_eq_true] at h
    simp only [descElems, List.mem_append] at hd2
    cases hd2 with
    | inl h2 =>
      obtain ⟨d, hd, hn⟩ := desc_nsub v1 v2 h.1 d2 h2
      refine ⟨d, ?_, hn⟩
      simp only [descElems, List.mem_append]
      exact Or.inl hd
    | inr h2 =>
      obtain ⟨d, hd, hn⟩ := desc_nsubElems tl1 tl2 h.2 d2 h2
      refine ⟨d, ?_, hn⟩
      simp only [descElems, List.mem_append]
      exact Or.inr hd
  | [], v2 :: tl2 => by
    intro h
    simp [nsubElems] at h
  | v1 :: tl1, [] => by
    intro _ d2 hd2
    simp [descElems] at hd2

end

/-- Null-substitution transfers the all-matches-null property forward along
a structural (Field/Wildcard/RecursiveDescent) expression: substituting
nulls can remove or truncate matches but never create a non-null one. -/
theorem find_null_nsub :
    ∀ rest : List Selector, (∀ s ∈ rest, isFieldWildRd s = true) →
    ∀ w w2 : JValue, nsubB w w2 = true →
    (∀ y ∈ jpFind rest w, y = JValue.null) →
    ∀ x ∈ jpFind rest w2, x = JValue.null
  | [] => by
    intro _ w w2 hn hy x hx
    have hw : w = JValue.null := hy w (by simp [jpFind])
    subst hw
    have h2 := nsub_null_left w2 hn
    subst h2
    simp only [jpFind, List.mem_singleton] at hx
    exact hx
  | .field k :: r2 => by
    intro hf w w2 hn hy x hx
    have hf2 : ∀ s ∈ r2, isFieldWildRd s = true :=
      fun s hs => hf s (List.mem_cons_of_mem _ hs)
    cases w2 with
    | obj kvs2 =>
      obtain ⟨kvs, rfl, hm⟩ := nsub_obj_right kvs2 w hn
      simp only [jpFind, selectOne] at hx
      cases hl2 : objLookup kvs2 k with
      | none =>
        rw [hl2] at hx
        simp at hx
      | some c2 =>
        rw [hl2] at hx
        simp only [Option.toList_some, List.flatMap_cons, List.flatMap_nil,
          List.append_nil] at hx
        obtain ⟨c, hl, hcn⟩ := nsubMembers_lookup kvs kvs2 hm k c2 hl2
        refine find_null_nsub r2 hf2 c c2 hcn ?_ x hx
        intro y hy2
        apply hy
        simp only [jpFind, selectOne, hl, Option.toList_some,
          List.flatMap_cons, List.flatMap_nil, List.append_nil]
        exact hy2
    | null => simp [jpFind, selectOne] at hx
    | bool b => simp [jpFind, selectOne] at hx
    | num n => simp [jpFind, selectOne] at hx
    | str s => simp [jpFind, selectOne] at hx
    | arr xs => simp [jpFind, selectOne] at hx
  | .wild :: r2 => by
    intro hf w w2 hn hy x hx
    have hf2 : ∀ s ∈ r2, isFieldWildRd s = true :=
      fun s hs => hf s (List.mem_cons_of_mem _ hs)
    cases w2 with
    | obj kvs2 =>
      obtain ⟨kvs, rfl, hm⟩ := nsub_obj_right kvs2 w hn
      simp only [jpFind, selectOne, List.mem_flatMap] at hx
      obtain ⟨c2, hc2, hx2⟩ := hx
      obtain ⟨c, hc, hcn⟩ := nsubMembers_mem kvs kvs2 hm c2 hc2
      refine find_null_nsub r2 hf2 c c2 hcn ?_ x hx2
      intro y hy2
      apply hy
      simp only [jpFind, selectOne, List.mem_flatMap]
      exact ⟨c, hc, hy2⟩
    | arr xs2 =>
      obtain ⟨xs, rfl, hm⟩ := nsub_arr_right xs2 w hn
      simp only [jpFind, selectOne, List.mem_flatMap] at hx
      obtain ⟨c2, hc2, hx2⟩ := hx
      obtain ⟨c, hc, hcn⟩ := nsubElems_mem xs xs2 hm c2 hc2
      refine find_null_nsub r2 hf2 c c2 hcn ?_ x hx2
      intro y hy2
      apply hy
      simp only [jpFind, selectOne, List.mem_flatMap]
      exact ⟨c, hc, hy2⟩
    | null => simp [jpFind, selectOne] at hx
    | bool b => simp [jpFind, selectOne] at hx
    | num n => simp [jpFind, selectOne] at hx
    | str s => simp [jpFind, selectOne] at hx
  | .rd :: r2 => by
    intro hf w w2 hn hy x hx
    have hf2 : ∀ s ∈ r2, isFieldWildRd s = true :=
      fun s hs => hf s (List.mem_cons_of_mem _ hs)
    simp only [jpFind, selectOne, List.mem_flatMap] at hx
    obtain ⟨d2, hd2, hx2⟩ := hx
    obtain ⟨d, hd, hdn⟩ := desc_nsub w w2 hn d2 hd2
    refine find_null_nsub r2 hf2 d d2 hdn ?_ x hx2
    intro y hy2
    apply hy
    simp only [jpFind, selectOne, List.mem_flatMap]
    exact ⟨d, hd, hy2⟩
  | .index i :: r2 => by
    intro hf
    have h := hf (.index i) (by simp)
    simp [isFieldWildRd] at h
  | .slice a b :: r2 => by
    intro hf
    have h := hf (.slice a b) (by simp)
    simp [isFieldWildRd] at h
  | .filt f op lit :: r2 => by
    intro hf
    have h := hf (.filt f op lit) (by simp)
    simp [isFieldWildRd] at h

/-- Hereditary form of the transfer: the all-matches-null property at every
descendant also carries over a null-substitution. -/
theorem hered_null_nsub (rest : List Selector)
    (hf : ∀ s ∈ rest, isFieldWildRd s = true) (w w2 : JValue)
    (hn : nsubB w w2 = true)
    (hw : ∀ d ∈ descendantsSelf w, ∀ y ∈ jpFind rest d, y = JValue.null) :
    ∀ d2 ∈ descendantsSelf w2, ∀ x ∈ jpFind rest d2, x = JValue.null := by
  intro d2 hd2 x hx
  obtain ⟨d, hd, hdn⟩ := desc_nsub w w2 hn d2 hd2
  exact find_null_nsub rest hf d d2 hdn (hw d hd) x hx

theorem wf_membersOf (kvs : List (String × JValue))
    (h : wfB (.obj kvs) = true) : wfMembers kvs = true := by
  simp only [wfB, Bool.and_eq_true] at h
  exact h.2

theorem wf_elemsOf (xs : List JValue) (h : wfB (.arr xs) = true) :
    wfElems xs = true := by
  simpa [wfB] using h

theorem wf_memberValue :
    ∀ kvs : List (String × JValue), wfMembers kvs = true →
    ∀ c ∈ kvs.map Prod.snd, wfB c = true
  | [] => by
    intro _ c hc
    simp at hc
  | (k0, v0) :: tl => by
    intro h c hc
    simp only [wfMembers, Bool.and_eq_true] at h
    simp only [List.map_cons, List.mem_cons] at hc
    cases hc with
    | inl he => exact he ▸ h.1
    | inr he => exact wf_memberValue tl h.2 c he

theorem wf_elemValue :
    ∀ xs : List JValue, wfElems xs = true → ∀ c ∈ xs, wfB c = true
  | [] => by
    intro _ c hc
    simp at hc
  | x0 :: tl => by
    intro h c hc
    simp only [wfElems, Bool.and_eq_true] at h
    simp only [List.mem_cons] at hc
    cases hc with
    | inl he => exact he ▸ h.1
    | inr he => exact wf_elemValue tl h.2 c he

mutual

theorem wf_desc : ∀ v : JValue, wfB v = true →
    ∀ d ∈ descendantsSelf v, wfB d = true
  | .obj kvs => by
    intro h d hd
    simp only [descendantsSelf, List.mem_cons] at hd
    cases hd with
    | inl he => exact he ▸ h
    | inr he => exact wf_descMembers kvs (wf_membersOf kvs h) d he
  | .arr xs => by
    intro h d hd
    simp only [descendantsSelf, List.mem_cons] at hd
    cases hd with
    | inl he => exact he ▸ h
    | inr he => exact wf_descElems xs (wf_elemsOf xs h) d he
  | .null => by
    intro h d hd
    simp only [descendantsSelf, List.mem_singleton] at hd
    exact hd ▸ h
  | .bool b => by
    intro h d hd
    simp only [descendantsSelf, List.mem_singleton] at hd
    exact hd ▸ h
  | .num n => by
    intro h d hd
    simp only [descendantsSelf, List.mem_singleton] at hd
    exact hd ▸ h
  | .str s => by
    intro h d hd
    simp only [descendantsSelf, List.mem_singleton] at hd
    exact hd ▸ h

theorem wf_descMembers : ∀ kvs : List (String × JValue),
    wfMembers kvs = true → ∀ d ∈ descMembers kvs, wfB d = true
  | [] => by
    intro _ d hd
    simp [descMembers] at hd
  | (k0, v0) :: tl => by
    intro h d hd
    simp only [wfMembers, Bool.and_eq_true] at h
    simp only [descMembers, List.mem_append] at hd
    cases hd with
    | inl he => exact wf_desc v0 h.1 d he
    | inr he => exact wf_descMembers tl h.2 d he

theorem wf_descElems : ∀ xs : List JValue,
    wfElems xs = true → ∀ d ∈ descElems xs, wfB d = true
  | [] => by
    intro _ d hd
    simp [descElems] at hd
  | x0 :: tl => by
    intro h d hd
    simp only [wfElems, Bool.and_eq_true] at h
    simp only [descElems, List.mem_append] at hd
    cases hd with
    | inl he => exact wf_desc x0 h.1 d he
    | inr he => exact wf_descElems tl h.2 d he

end

theorem keys_objMapFirst (f : JValue → JValue) (k : String) :
    ∀ kvs : List (String × JValue),
      (objMapFirst f k kvs).map Prod.fst = kvs.map Prod.fst
  | [] => rfl
  | (k0, v0) :: tl => by
    by_cases h : k0 = k <;>
      simp [objMapFirst, h, keys_objMapFirst f k tl]

theorem keys_mapSnd (f : JValue → JValue) :
    ∀ kvs : List (String × JValue),
      (kvs.map (fun p => (p.1, f p.2))).map Prod.fst = kvs.map Prod.fst
  | [] => rfl
  | (k0, v0) :: tl => by
    simp [keys_mapSnd f tl]

theorem keys_mutEvMembers (g : JValue → JValue) :
    ∀ kvs : List (String × JValue),
      (mutEvMembers g kvs).map Prod.fst = kvs.map Prod.fst
  | [] => rfl
  | (k0, v0) :: tl => by
    simp [mutEvMembers, keys_mutEvMembers g tl]

theorem wfMembers_objMapFirst (f : JValue → JValue)
    (hf : ∀ x, wfB x = true → wfB (f x) = true) (k : String) :
    ∀ kvs : List (String × JValue), wfMembers kvs = true →
      wfMembers (objMapFirst f k kvs) = true
  | [] => fun _ => rfl
  | (k0, v0) :: tl => by
    intro h
    simp only [wfMembers, Bool.and_eq_true] at h
    by_cases he : k0 = k
    · simp only [objMapFirst, he, if_true, eq_self_iff_true, wfMembers,
        Bool.and_eq_true]
      exact ⟨hf v0 h.1, h.2⟩
    · simp only [objMapFirst, he, if_false, if_neg he, wfMembers,
        Bool.and_eq_true]
      exact ⟨h.1, wfMembers_objMapFirst f hf k tl h.2⟩

theorem wfMembers_mapSnd (f : JValue → JValue)
    (hf : ∀ x, wfB x = true → wfB (f x) = true) :
    ∀ kvs : List (String × JValue), wfMembers kvs = true →
      wfMembers (kvs.map (fun p => (p.1, f p.2))) = true
  | [] => fun _ => rfl
  | (k0, v0) :: tl => by
    intro h
    simp only [wfMembers, Bool.and_eq_true] at h
    simp only [List.map_cons, wfMembers, Bool.and_eq_true]
    exact ⟨hf v0 h.1, wfMembers_mapSnd f hf tl h.2⟩

theorem wfElems_map (f : JValue → JValue)
    (hf : ∀ x, wfB x = true → wfB (f x) = true) :
    ∀ xs : List JValue, wfElems xs = true → wfElems (xs.map f) = true
  | [] => fun _ => rfl
  | x0 :: tl => by
    intro h
    simp only [wfElems, Bool.and_eq_true] at h
    simp only [List.map_cons, wfElems, Bool.and_eq_true]
    exact ⟨hf x0 h.1, wfElems_map f hf tl h.2⟩

theorem wf_getD :
    ∀ (xs : List JValue) (n : Nat), wfElems xs = true →
      wfB (xs.getD n .null) = true
  | [], n => fun _ => rfl
  | x0 :: tl, 0 => by
    intro h
    simp only [wfElems, Bool.and_eq_true] at h
    simpa using h.1
  | x0 :: tl, n + 1 => by
    intro h
    simp only [wfElems, Bool.and_eq_true] at h
    simpa using wf_getD tl n h.2

theorem wfElems_set :
    ∀ (xs : List JValue) (n : Nat) (y : JValue), wfElems xs = true →
      wfB y = true → wfElems (xs.set n y) = true
  | [], _, y => fun _ _ => rfl
  | x0 :: tl, 0, y => by
    intro h hy
    simp only [wfElems, Bool.and_eq_true] at h
    simp only [List.set, wfElems, Bool.and_eq_true]
    exact ⟨hy, h.2⟩
  | x0 :: tl, n + 1, y => by
    intro h hy
    simp only [wfElems, Bool.and_eq_true] at h
    simp only [List.set, wfElems, Bool.and_eq_true]
    exact ⟨h.1, wfElems_set tl n y h.2 hy⟩

theorem wfElems_mutIdxFrom (f : JValue → JValue)
    (hf : ∀ x, wfB x = true → wfB (f x) = true) (p : Nat → Bool) :
    ∀ (n : Nat) (xs : List JValue), wfElems xs = true →
      wfElems (mutIdxFrom f p n xs) = true
  | _, [] => fun _ => rfl
  | n, x0 :: tl => by
    intro h
    simp only [wfElems, Bool.and_eq_true] at h
    by_cases hp : p n = true
    · simp only [mutIdxFrom, hp, if_true, wfElems, Bool.and_eq_true]
      exact ⟨hf x0 h.1, wfElems_mutIdxFrom f hf p (n + 1) tl h.2⟩
    · simp only [mutIdxFrom, hp, if_false, Bool.false_eq_true, wfElems,
        Bool.and_eq_true]
      exact ⟨h.1, wfElems_mutIdxFrom f hf p (n + 1) tl h.2⟩

mutual

theorem wf_mutEverywhere (g : JValue → JValue)
    (hg : ∀ x, wfB x = true → wfB (g x) = true) :
    ∀ v : JValue, wfB v = true → wfB (mutEverywhere g v) = true
  | .obj kvs => by
    intro h
    apply hg
    simp only [wfB, Bool.and_eq_true]
    refine ⟨?_, wf_mutEvMembers g hg kvs (wf_membersOf kvs h)⟩
    rw [keys_mutEvMembers]
    exact wf_distinct kvs h
  | .arr xs => by
    intro h
    apply hg
    simp only [wfB]
    exact wf_mutEvElems g hg xs (wf_elemsOf xs h)
  | .null => fun h => hg .null h
  | .bool b => fun h => hg (.bool b) h
  | .num n => fun h => hg (.num n) h
  | .str s => fun h => hg (.str s) h

theorem wf_mutEvMembers (g : JValue → JValue)
    (hg : ∀ x, wfB x = true → wfB (g x) = true) :
    ∀ kvs : List (String × JValue), wfMembers kvs = true →
      wfMembers (mutEvMembers g kvs) = true
  | [] => fun _ => rfl
  | (k0, v0) :: tl => by
    intro h
    simp only [wfMembers, Bool.and_eq_true] at h
    simp only [mutEvMembers, wfMembers, Bool.and_eq_true]
    exact ⟨wf_mutEverywhere g hg v0 h.1, wf_mutEvMembers g hg tl h.2⟩

theorem wf_mutEvElems (g : JValue → JValue)
    (hg : ∀ x, wfB x = true → wfB (g x) = true) :
    ∀ xs : List JValue, wfElems xs = true →
      wfElems (mutEvElems g xs) = true
  | [] => fun _ => rfl
  | x0 :: tl => by
    intro h
    simp only [wfElems, Bool.and_eq_true] at h
    simp only [mutEvElems, wfElems, Bool.and_eq_true]
    exact ⟨wf_mutEverywhere g hg x0 h.1, wf_mutEvElems g hg tl h.2⟩

end

/-- The tombstone pass preserves well-formedness: it only writes nulls and
keeps every object's member names. -/
theorem wf_jpMut :
    ∀ (sels : List Selector) (v : JValue), wfB v = true →
      wfB (jpMut (fun _ => JValue.null) sels v) = true
  | [], v => fun _ => rfl
  | s :: rest, v => by
    intro h
    have hg : ∀ x, wfB x = true →
        wfB (jpMut (fun _ => JValue.null) rest x) = true :=
      fun x => wf_jpMut rest x
    show wfB (mutStep (jpMut (fun _ => JValue.null) rest) s v) = true
    cases s with
    | field k =>
      cases v with
      | obj kvs =>
        simp only [mutStep]
        cases hl : objLookup kvs k with
        | some c =>
          simp only [wfB, Bool.and_eq_true]
          refine ⟨?_, wfMembers_objMapFirst _ hg k kvs (wf_membersOf kvs h)⟩
          rw [keys_objMapFirst]
          exact wf_distinct kvs h
        | none => exact h
      | null => exact h
      | bool b => exact h
      | num n => exact h
      | str s => exact h
      | arr xs => exact h
    | index i =>
      cases v with
      | arr xs =>
        simp only [mutStep]
        cases hn : pyIdx xs.length i with
        | some n =>
          simp only [wfB]
          exact wfElems_set xs n _ (wf_elemsOf xs h)
            (hg _ (wf_getD xs n (wf_elemsOf xs h)))
        | none => exact h
      | null => exact h
      | bool b => exact h
      | num n => exact h
      | str s => exact h
      | obj kvs => exact h
    | wild =>
      cases v with
      | obj kvs =>
        simp only [mutStep, wfB, Bool.and_eq_true]
        refine ⟨?_, wfMembers_mapSnd _ hg kvs (wf_membersOf kvs h)⟩
        rw [keys_mapSnd]
        exact wf_distinct kvs h
      | arr xs =>
        simp only [mutStep, wfB]
        exact wfElems_map _ hg xs (wf_elemsOf xs h)
      | null => exact h
      | bool b => exact h
      | num n => exact h
      | str s => exact h
    | rd => exact wf_mutEverywhere _ hg v h
    | slice a b =>
      cases v with
      | arr xs =>
        simp only [mutStep, wfB]
        exact wfElems_mutIdxFrom _ hg _ 0 xs (wf_elemsOf xs h)
      | null => exact h
      | bool b2 => exact h
      | num n => exact h
      | str s => exact h
      | obj kvs => exact h
    | filt f op lit =>
      cases v with
      | arr xs =>
        have hg2 : ∀ x, wfB x = true → wfB
            (if filtTest f op lit x then
              jpMut (fun _ => JValue.null) rest x else x) = true := by
          intro x hx
          by_cases hc : filtTest f op lit x = true
          · simpa [hc] using hg x hx
          · simpa [hc] using hx
        simp only [mutStep, wfB]
        exact wfElems_map _ hg2 xs (wf_elemsOf xs h)
      | null => exact h
      | bool b => exact h
      | num n => exact h
      | str s => exact h
      | obj kvs => exact h

theorem mem_cleanMembers_snd :
    ∀ (kvs : List (String × JValue)) (c2 : JValue),
      c2 ∈ (cleanMembers kvs).map Prod.snd →
      ∃ c, c ∈ kvs.map Prod.snd ∧ isNullB c = false ∧
        c2 = clean_none_values c
  | [], c2 => by
    intro h
    simp [cleanMembers] at h
  | (k0, v0) :: tl, c2 => by
    intro h
    by_cases hn : isNullB v0 = true
    · rw [show cleanMembers ((k0, v0) :: tl) = cleanMembers tl from by
        simp [cleanMembers, hn]] at h
      obtain ⟨c, hc, h1, h2⟩ := mem_cleanMembers_snd tl c2 h
      exact ⟨c, by simp only [List.map_cons, List.mem_cons]; exact Or.inr hc,
        h1, h2⟩
    · rw [show cleanMembers ((k0, v0) :: tl)
          = (k0, clean_none_values v0) :: cleanMembers tl from by
        simp [cleanMembers, hn]] at h
      simp only [List.map_cons, List.mem_cons] at h
      cases h with
      | inl he =>
        exact ⟨v0, by simp, by simpa using hn, he⟩
      | inr he =>
        obtain ⟨c, hc, h1, h2⟩ := mem_cleanMembers_snd tl c2 he
        exact ⟨c, by simp only [List.map_cons, List.mem_cons]; exact Or.inr hc,
          h1, h2⟩

theorem mem_cleanElems :
    ∀ (xs : List JValue) (c2 : JValue), c2 ∈ cleanElems xs →
      ∃ c, c ∈ xs ∧ isNullB c = false ∧ c2 = clean_none_values c
  | [], c2 => by
    intro h
    simp [cleanElems] at h
  | x0 :: tl, c2 => by
    intro h
    by_cases hn : isNullB x0 = true
    · rw [show cleanElems (x0 :: tl) = cleanElems tl from by
        simp [cleanElems, hn]] at h
      obtain ⟨c, hc, h1, h2⟩ := mem_cleanElems tl c2 h
      exact ⟨c, List.mem_cons_of_mem _ hc, h1, h2⟩
    · rw [show cleanElems (x0 :: tl)
          = clean_none_values x0 :: cleanElems tl from by
        simp [cleanElems, hn]] at h
      simp only [List.mem_cons] at h
      cases h with
      | inl he =>
        exact ⟨x0, by simp, by simpa using hn, he⟩
      | inr he =>
        obtain ⟨c, hc, h1, h2⟩ := mem_cleanElems tl c2 he
        exact ⟨c, List.mem_cons_of_mem _ hc, h1, h2⟩

theorem lookup_cleanMembers_some (k : String) :
    ∀ (kvs : List (String × JValue)) (c : JValue),
      distinctKeys (kvs.map Prod.fst) = true → objLookup kvs k = some c →
      objLookup (cleanMembers kvs) k
        = if isNullB c then none else some (clean_none_values c)
  | [], c => by
    intro _ h
    simp [objLookup] at h
  | (k0, v0) :: tl, c => by
    intro hd hl
    simp only [List.map_cons, distinctKeys, Bool.and_eq_true,
      Bool.not_eq_true'] at hd
    obtain ⟨hnm, hdt⟩ := hd
    by_cases he : k0 = k
    · subst he
      simp only [objLookup, if_true, eq_self_iff_true,
        Option.some.injEq] at hl
      subst hl
      by_cases hn : isNullB v0 = true
      · rw [if_pos hn]
        rw [show cleanMembers ((k0, v0) :: tl) = cleanMembers tl from by
          simp [cleanMembers, hn]]
        exact lookup_cleanMembers_none k0 tl
          (lookup_none_of_not_keyMem k0 tl hnm)
      · rw [if_neg hn]
        rw [show cleanMembers ((k0, v0) :: tl)
            = (k0, clean_none_values v0) :: cleanMembers tl from by
          simp [cleanMembers, hn]]
        simp [objLookup]
    · simp only [objLookup, if_neg he] at hl
      by_cases hn : isNullB v0 = true
      · rw [show cleanMembers ((k0, v0) :: tl) = cleanMembers tl from by
          simp [cleanMembers, hn]]
        exact lookup_cleanMembers_some k tl c hdt hl
      · rw [show cleanMembers ((k0, v0) :: tl)
            = (k0, clean_none_values v0) :: cleanMembers tl from by
          simp [cleanMembers, hn]]
        simp only [objLookup, if_neg he]
        exact lookup_cleanMembers_some k tl c hdt hl

mutual

theorem desc_clean : ∀ v : JValue,
    ∀ d2 ∈ descendantsSelf (clean_none_values v),
      ∃ d, d ∈ descendantsSelf v ∧ d2 = clean_none_values d
  | .obj kvs => by
    intro d2 hd2
    simp only [clean_none_values, descendantsSelf, List.mem_cons] at hd2
    cases hd2 with
    | inl he =>
      exact ⟨.obj kvs, self_mem_descendantsSelf _,
        by simp [he, clean_none_values]⟩
    | inr he =>
      obtain ⟨d, hd, h2⟩ := desc_cleanMembers kvs d2 he
      refine ⟨d, ?_, h2⟩
      simp only [descendantsSelf, List.mem_cons]
      exact Or.inr hd
  | .arr xs => by
    intro d2 hd2
    simp only [clean_none_values, descendantsSelf, List.mem_cons] at hd2
    cases hd2 with
    | inl he =>
      exact ⟨.arr xs, self_mem_descendantsSelf _,
        by simp [he, clean_none_values]⟩
    | inr he =>
      obtain ⟨d, hd, h2⟩ := desc_cleanElems xs d2 he
      refine ⟨d, ?_, h2⟩
      simp only [descendantsSelf, List.mem_cons]
      exact Or.inr hd
  | .null => by
    intro d2 hd2
    simp only [clean_none_values, descendantsSelf, List.mem_singleton] at hd2
    exact ⟨.null, self_mem_descendantsSelf _, by simp [hd2, clean_none_values]⟩
  | .bool b => by
    intro d2 hd2
    simp only [clean_none_values, descendantsSelf, List.mem_singleton] at hd2
    exact ⟨.bool b, self_mem_descendantsSelf _,
      by simp [hd2, clean_none_values]⟩
  | .num n => by
    intro d2 hd2
    simp only [clean_none_values, descendantsSelf, List.mem_singleton] at hd2
    exact ⟨.num n, self_mem_descendantsSelf _,
      by simp [hd2, clean_none_values]⟩
  | .str s => by
    intro d2 hd2
    simp only [clean_none_values, descendantsSelf, List.mem_singleton] at hd2
    exact ⟨.str s, self_mem_descendantsSelf _,
      by simp [hd2, clean_none_values]⟩

theorem desc_cleanMembers : ∀ kvs : List (String × JValue),
    ∀ d2 ∈ descMembers (cleanMembers kvs),
      ∃ d, d ∈ descMembers kvs ∧ d2 = clean_none_values d
  | [] => by
    intro d2 hd2
    simp [cleanMembers, descMembers] at hd2
  | (k0, v0) :: tl => by
    intro d2 hd2
    by_cases hn : isNullB v0 = true
    · rw [show cleanMembers ((k0, v0) :: tl) = cleanMembers tl from by
        simp [cleanMembers, hn]] at hd2
      obtain ⟨d, hd, h2⟩ := desc_cleanMembers tl d2 hd2
      refine ⟨d, ?_, h2⟩
      simp only [descMembers, List.mem_append]
      exact Or.inr hd
    · rw [show cleanMembers ((k0, v0) :: tl)
          = (k0, clean_none_values v0) :: cleanMembers tl from by
        simp [cleanMembers, hn]] at hd2
      simp only [descMembers, List.mem_append] at hd2
      cases hd2 with
      | inl he =>
        obtain ⟨d, hd, h2⟩ := desc_clean v0 d2 he
        refine ⟨d, ?_, h2⟩
        simp only [descMembers, List.mem_append]
        exact Or.inl hd
      | inr he =>
        obtain ⟨d, hd, h2⟩ := desc_cleanMembers tl d2 he
        refine ⟨d, ?_, h2⟩
        simp only [descMembers, List.mem_append]
        exact Or.inr hd

theorem desc_cleanElems : ∀ xs : List JValue,
    ∀ d2 ∈ descElems (cleanElems xs),
      ∃ d, d ∈ descElems xs ∧ d2 = clean_none_values d
  | [] => by
    intro d2 hd2
    simp [cleanElems, descElems] at hd2
  | x0 :: tl => by
    intro d2 hd2
    by_cases hn : isNullB x0 = true
    · rw [show cleanElems (x0 :: tl) = cleanElems tl from by
        simp [cleanElems, hn]] at hd2
      obtain ⟨d, hd, h2⟩ := desc_cleanElems tl d2 hd2
      refine ⟨d, ?_, h2⟩
      simp only [descElems, List.mem_append]
      exact Or.inr hd
    · rw [show cleanElems (x0 :: tl)
          = clean_none_values x0 :: cleanElems tl from by
        simp [cleanElems, hn]] at hd2
      simp only [descElems, List.mem_append] at hd2
      cases hd2 with
      | inl he =>
        obtain ⟨d, hd, h2⟩ := desc_clean x0 d2 he
        refine ⟨d, ?_, h2⟩
        simp only [descElems, List.mem_append]
        exact Or.inl hd
      | inr he =>
        obtain ⟨d, hd, h2⟩ := desc_cleanElems tl d2 he
        refine ⟨d, ?_, h2⟩
        simp only [descElems, List.mem_append]
        exact Or.inr hd

end

/-- Compaction preserves the all-matches-null property of a well-formed tree
along a structural (Field/Wildcard/RecursiveDescent) expression. -/
theorem find_clean_null :
    ∀ rest : List Selector, (∀ s ∈ rest, isFieldWildRd s = true) →
    ∀ d : JValue, wfB d = true →
    (∀ y ∈ jpFind rest d, y = JValue.null) →
    ∀ x ∈ jpFind rest (clean_none_values d), x = JValue.null
  | [] => by
    intro _ d _ hy x hx
    have hd : d = JValue.null := hy d (by simp [jpFind])
    subst hd
    simp only [clean_none_values, jpFind, List.mem_singleton] at hx
    exact hx
  | .field k :: r2 => by
    intro hf d hwf hy x hx
    have hf2 : ∀ s ∈ r2, isFieldWildRd s = true :=
      fun s hs => hf s (List.mem_cons_of_mem _ hs)
    cases d with
    | obj kvs =>
      simp only [clean_none_values, jpFind, selectOne] at hx
      cases hl : objLookup kvs k with
      | none =>
        rw [lookup_cleanMembers_none k kvs hl] at hx
        simp at hx
      | some c =>
        rw [lookup_cleanMembers_some k kvs c (wf_distinct kvs hwf) hl] at hx
        by_cases hn : isNullB c = true
        · rw [if_pos hn] at hx
          simp at hx
        · rw [if_neg hn] at hx
          simp only [Option.toList_some, List.flatMap_cons, List.flatMap_nil,
            List.append_nil] at hx
          refine find_clean_null r2 hf2 c (wf_member k kvs c hwf hl) ?_ x hx
          intro y hy2
          apply hy
          simp only [jpFind, selectOne, hl, Option.toList_some,
            List.flatMap_cons, List.flatMap_nil, List.append_nil]
          exact hy2
    | null => simp [clean_none_values, jpFind, selectOne] at hx
    | bool b => simp [clean_none_values, jpFind, selectOne] at hx
    | num n => simp [clean_none_values, jpFind, selectOne] at hx
    | str s => simp [clean_none_values, jpFind, selectOne] at hx
    | arr xs => simp [clean_none_values, jpFind, selectOne] at hx
  | .wild :: r2 => by
    intro hf d hwf hy x hx
    have hf2 : ∀ s ∈ r2, isFieldWildRd s = true :=
      fun s hs => hf s (List.mem_cons_of_mem _ hs)
    cases d with
    | obj kvs =>
      simp only [clean_none_values, jpFind, selectOne,
        List.mem_flatMap] at hx
      obtain ⟨c2, hc2, hx2⟩ := hx
      obtain ⟨c, hc, hcnull, hce⟩ := mem_cleanMembers_snd kvs c2 hc2
      subst hce
      refine find_clean_null r2 hf2 c
        (wf_memberValue kvs (wf_membersOf kvs hwf) c hc) ?_ x hx2
      intro y hy2
      apply hy
      simp only [jpFind, selectOne, List.mem_flatMap]
      exact ⟨c, hc, hy2⟩
    | arr xs =>
      simp only [clean_none_values, jpFind, selectOne,
        List.mem_flatMap] at hx
      obtain ⟨c2, hc2, hx2⟩ := hx
      obtain ⟨c, hc, hcnull, hce⟩ := mem_cleanElems xs c2 hc2
      subst hce
      refine find_clean_null r2 hf2 c
        (wf_elemValue xs (wf_elemsOf xs hwf) c hc) ?_ x hx2
      intro y hy2
      apply hy
      simp only [jpFind, selectOne, List.mem_flatMap]
      exact ⟨c, hc, hy2⟩
    | null => simp [clean_none_values, jpFind, selectOne] at hx
    | bool b => simp [clean_none_values, jpFind, selectOne] at hx
    | num n => simp [clean_none_values, jpFind, selectOne] at hx
    | str s => simp [clean_none_values, jpFind, selectOne] at hx
  | .rd :: r2 => by
    intro hf d hwf hy x hx
    have hf2 : ∀ s ∈ r2, isFieldWildRd s = true :=
      fun s hs => hf s (List.mem_cons_of_mem _ hs)
    simp only [jpFind, selectOne, List.mem_flatMap] at hx
    obtain ⟨d2, hd2, hx2⟩ := hx
    obtain ⟨e, he, hee⟩ := desc_clean d d2 hd2
    subst hee
    refine find_clean_null r2 hf2 e (wf_desc d hwf e he) ?_ x hx2
    intro y hy2
    apply hy
    simp only [jpFind, selectOne, List.mem_flatMap]
    exact ⟨e, he, hy2⟩
  | .index i :: r2 => by
    intro hf
    have h := hf (.index i) (by simp)
    simp [isFieldWildRd] at h
  | .slice a b :: r2 => by
    intro hf
    have h := hf (.slice a b) (by simp)
    simp [isFieldWildRd] at h
  | .filt f op lit :: r2 => by
    intro hf
    have h := hf (.filt f op lit) (by simp)
    simp [isFieldWildRd] at h

/-- Auxiliary for the recursive-descent selector: after `mutEverywhere` with
the tombstoning rest-mutation, every descendant of the result has only null
rest-matches.  The rest-level self-mutation property is taken as a
hypothesis; the recursion is on a size bound of the tree. -/
theorem hered_mutEverywhere_null :
    ∀ m : Nat, ∀ rest : List Selector,
      (∀ s ∈ rest, isFieldWildRd s = true) →
      (∀ v : JValue, ∀ x ∈ jpFind rest
        (jpMut (fun _ => JValue.null) rest v), x = JValue.null) →
      ∀ v : JValue, sizeOf v < m →
      ∀ d ∈ descendantsSelf
        (mutEverywhere (jpMut (fun _ => JValue.null) rest) v),
      ∀ x ∈ jpFind rest d, x = JValue.null := by
  intro m
  induction m with
  | zero =>
    intro rest hf hT v hv
    omega
  | succ m ih =>
    intro rest hf hT v hv d hd x hx
    cases v with
    | obj kvs =>
      rw [show mutEverywhere (jpMut (fun _ => JValue.null) rest) (.obj kvs)
          = jpMut (fun _ => JValue.null) rest
              (.obj (mutEvMembers (jpMut (fun _ => JValue.null) rest) kvs))
        from rfl] at hd
      rw [mem_descendantsSelf] at hd
      cases hd with
      | inl he =>
        subst he
        exact hT _ x hx
      | inr he =>
        obtain ⟨c2, hc2, hd2⟩ := he
        have hnsub := nsub_jpMut rest
          (.obj (mutEvMembers (jpMut (fun _ => JValue.null) rest) kvs))
        obtain (hnull | ⟨kvs2, hgu, hm⟩) := nsub_obj_left _ _ hnsub
        · rw [hnull] at hc2
          simp [childrenOf] at hc2
        · rw [hgu] at hc2
          simp only [childrenOf] at hc2
          obtain ⟨c1, hc1, hcn⟩ := nsubMembers_mem _ kvs2 hm c2 hc2
          rw [snd_mutEvMembers] at hc1
          simp only [List.mem_map] at hc1
          obtain ⟨c0, hc0, hc1e⟩ := hc1
          subst hc1e
          replace hc0 : c0 ∈ kvs.map Prod.snd := by simpa using hc0
          have hsz : sizeOf c0 < sizeOf (JValue.obj kvs) :=
            sizeOf_child_lt (.obj kvs) c0 hc0
          exact hered_null_nsub rest hf _ c2 hcn
            (ih rest hf hT c0 (by omega)) d hd2 x hx
    | arr xs =>
      rw [show mutEverywhere (jpMut (fun _ => JValue.null) rest) (.arr xs)
          = jpMut (fun _ => JValue.null) rest
              (.arr (mutEvElems (jpMut (fun _ => JValue.null) rest) xs))
        from rfl] at hd
      rw [mem_descendantsSelf] at hd
      cases hd with
      | inl he =>
        subst he
        exact hT _ x hx
      | inr he =>
        obtain ⟨c2, hc2, hd2⟩ := he
        have hnsub := nsub_jpMut rest
          (.arr (mutEvElems (jpMut (fun _ => JValue.null) rest) xs))
        obtain (hnull | ⟨xs2, hgu, hm⟩) := nsub_arr_left _ _ hnsub
        · rw [hnull] at hc2
          simp [childrenOf] at hc2
        · rw [hgu] at hc2
          simp only [childrenOf] at hc2
          obtain ⟨c1, hc1, hcn⟩ := nsubElems_mem _ xs2 hm c2 hc2
          rw [mutEvElems_eq_map] at hc1
          simp only [List.mem_map] at hc1
          obtain ⟨c0, hc0, hc1e⟩ := hc1
          subst hc1e
          have hsz : sizeOf c0 < sizeOf (JValue.arr xs) :=
            sizeOf_child_lt (.arr xs) c0 hc0
          exact hered_null_nsub rest hf _ c2 hcn
            (ih rest hf hT c0 (by omega)) d hd2 x hx
    | null =>
      have hq := nsub_null_left _ (nsub_jpMut rest JValue.null)
      rw [show mutEverywhere (jpMut (fun _ => JValue.null) rest) JValue.null
          = jpMut (fun _ => JValue.null) rest JValue.null from rfl, hq] at hd
      simp only [descendantsSelf, List.mem_singleton] at hd
      subst hd
      rw [← hq] at hx
      exact hT _ x hx
    | bool b =>
      have hq := nsub_bool_left b _ (nsub_jpMut rest (JValue.bool b))
      rw [show mutEverywhere (jpMut (fun _ => JValue.null) rest)
            (JValue.bool b)
          = jpMut (fun _ => JValue.null) rest (JValue.bool b) from rfl] at hd
      rcases hq with he | he <;>
        (rw [he] at hd
         simp only [descendantsSelf, List.mem_singleton] at hd
         subst hd
         rw [← he] at hx
         exact hT _ x hx)
    | num n =>
      have hq := nsub_num_left n _ (nsub_jpMut rest (JValue.num n))
      rw [show mutEverywhere (jpMut (fun _ => JValue.null) rest)
            (JValue.num n)
          = jpMut (fun _ => JValue.null) rest (JValue.num n) from rfl] at hd
      rcases hq with he | he <;>
        (rw [he] at hd
         simp only [descendantsSelf, List.mem_singleton] at hd
         subst hd
         rw [← he] at hx
         exact hT _ x hx)
    | str s =>
      have hq := nsub_str_left s _ (nsub_jpMut rest (JValue.str s))
      rw [show mutEverywhere (jpMut (fun _ => JValue.null) rest)
            (JValue.str s)
          = jpMut (fun _ => JValue.null) rest (JValue.str s) from rfl] at hd
      rcases hq with he | he <;>
        (rw [he] at hd
         simp only [descendantsSelf, List.mem_singleton] at hd
         subst hd
         rw [← he] at hx
         exact hT _ x hx)

/-- Self-mutation tombstones every match: after overwriting every location
matched by a structural (Field/Wildcard/RecursiveDescent) expression with
null, the same expression matches only nulls. -/
theorem find_mut_self_null :
    ∀ sels : List Selector, (∀ s ∈ sels, isFieldWildRd s = true) →
    ∀ v : JValue, ∀ x ∈ jpFind sels (jpMut (fun _ => JValue.null) sels v),
      x = JValue.null
  | [] => by
    intro _ v x hx
    simp only [jpMut, jpFind, List.mem_singleton] at hx
    exact hx
  | .field k :: rest => by
    intro hf v x hx
    have hf2 : ∀ s ∈ rest, isFieldWildRd s = true :=
      fun s hs => hf s (List.mem_cons_of_mem _ hs)
    cases v with
    | obj kvs =>
      rw [show jpMut (fun _ => JValue.null) (.field k :: rest) (.obj kvs)
          = mutStep (jpMut (fun _ => JValue.null) rest) (.field k) (.obj kvs)
        from rfl] at hx
      simp only [mutStep] at hx
      cases hl : objLookup kvs k with
      | none =>
        rw [hl] at hx
        dsimp only at hx
        simp [jpFind, selectOne, hl] at hx
      | some c =>
        rw [hl] at hx
        dsimp only at hx
        simp only [jpFind, selectOne,
          objLookup_objMapFirst_self (jpMut (fun _ => JValue.null) rest)
            k kvs c hl,
          Option.toList_some, List.flatMap_cons, List.flatMap_nil,
          List.append_nil] at hx
        exact find_mut_self_null rest hf2 c x hx
    | null => simp [jpMut, mutStep, jpFind, selectOne] at hx
    | bool b => simp [jpMut, mutStep, jpFind, selectOne] at hx
    | num n => simp [jpMut, mutStep, jpFind, selectOne] at hx
    | str s => simp [jpMut, mutStep, jpFind, selectOne] at hx
    | arr xs => simp [jpMut, mutStep, jpFind, selectOne] at hx
  | .wild :: rest => by
    intro hf v x hx
    have hf2 : ∀ s ∈ rest, isFieldWildRd s = true :=
      fun s hs => hf s (List.mem_cons_of_mem _ hs)
    cases v with
    | obj kvs =>
      simp only [jpMut, mutStep, jpFind, selectOne, List.mem_flatMap] at hx
      obtain ⟨c2, hc2, hx2⟩ := hx
      rw [snd_mapSnd] at hc2
      simp only [List.mem_map] at hc2
      obtain ⟨c0, hc0, hc2e⟩ := hc2
      subst hc2e
      exact find_mut_self_null rest hf2 c0 x hx2
    | arr xs =>
      simp only [jpMut, mutStep, jpFind, selectOne, List.mem_flatMap] at hx
      obtain ⟨c2, hc2, hx2⟩ := hx
      simp only [List.mem_map] at hc2
      obtain ⟨c0, hc0, hc2e⟩ := hc2
      subst hc2e
      exact find_mut_self_null rest hf2 c0 x hx2
    | null => simp [jpMut, mutStep, jpFind, selectOne] at hx
    | bool b => simp [jpMut, mutStep, jpFind, selectOne] at hx
    | num n => simp [jpMut, mutStep, jpFind, selectOne] at hx
    | str s => simp [jpMut, mutStep, jpFind, selectOne] at hx
  | .rd :: rest => by
    intro hf v x hx
    have hf2 : ∀ s ∈ rest, isFieldWildRd s = true :=
      fun s hs => hf s (List.mem_cons_of_mem _ hs)
    rw [show jpMut (fun _ => JValue.null) (.rd :: rest) v
        = mutEverywhere (jpMut (fun _ => JValue.null) rest) v from rfl] at hx
    simp only [jpFind, selectOne, List.mem_flatMap] at hx
    obtain ⟨d, hd, hx2⟩ := hx
    exact hered_mutEverywhere_null (sizeOf v + 1) rest hf2
      (find_mut_self_null rest hf2) v (by omega) d hd x hx2
  | .index i :: rest => by
    intro hf
    have h := hf (.index i) (by simp)
    simp [isFieldWildRd] at h
  | .slice a b :: rest => by
    intro hf
    have h := hf (.slice a b) (by simp)
    simp [isFieldWildRd] at h
  | .filt f op lit :: rest => by
    intro hf
    have h := hf (.filt f op lit) (by simp)
    simp [isFieldWildRd] at h

theorem objMapFirst_id (f : JValue → JValue) (k : String) :
    ∀ (kvs : List (String × JValue)) (c : JValue), objLookup kvs k = some c →
      f c = c → objMapFirst f k kvs = kvs
  | [], c => by
    intro h
    simp [objLookup] at h
  | (k0, v0) :: tl, c => by
    intro hl hc
    by_cases he : k0 = k
    · subst he
      simp only [objLookup, if_true, eq_self_iff_true,
        Option.some.injEq] at hl
      subst hl
      simp [objMapFirst, hc]
    · simp only [objLookup, if_neg he] at hl
      simp [objMapFirst, he, objMapFirst_id f k tl c hl hc]

theorem mapSnd_id (f : JValue → JValue) :
    ∀ kvs : List (String × JValue), (∀ c ∈ kvs.map Prod.snd, f c = c) →
      kvs.map (fun p => (p.1, f p.2)) = kvs
  | [] => fun _ => rfl
  | (k0, v0) :: tl => by
    intro h
    simp only [List.map_cons]
    rw [h v0 (by simp), mapSnd_id f tl (fun c hc => h c (by simp [hc]))]

theorem mapElems_id (f : JValue → JValue) :
    ∀ xs : List JValue, (∀ c ∈ xs, f c = c) → xs.map f = xs
  | [] => fun _ => rfl
  | x0 :: tl => by
    intro h
    simp only [List.map_cons]
    rw [h x0 (by simp), mapElems_id f tl (fun c hc => h c (by simp [hc]))]

mutual

theorem mutEverywhere_id (g : JValue → JValue) :
    ∀ v : JValue, (∀ d ∈ descendantsSelf v, g d = d) →
      mutEverywhere g v = v
  | .obj kvs => by
    intro h
    have hm : mutEvMembers g kvs = kvs :=
      mutEvMembers_id g kvs
        (fun d hd => h d (by
          simp only [descendantsSelf, List.mem_cons]
          exact Or.inr hd))
    show g (.obj (mutEvMembers g kvs)) = .obj kvs
    rw [hm]
    exact h _ (self_mem_descendantsSelf _)
  | .arr xs => by
    intro h
    have hm : mutEvElems g xs = xs :=
      mutEvElems_id g xs
        (fun d hd => h d (by
          simp only [descendantsSelf, List.mem_cons]
          exact Or.inr hd))
    show g (.arr (mutEvElems g xs)) = .arr xs
    rw [hm]
    exact h _ (self_mem_descendantsSelf _)
  | .null => fun h => h _ (self_mem_descendantsSelf _)
  | .bool b => fun h => h _ (self_mem_descendantsSelf _)
  | .num n => fun h => h _ (self_mem_descendantsSelf _)
  | .str s => fun h => h _ (self_mem_descendantsSelf _)

theorem mutEvMembers_id (g : JValue → JValue) :
    ∀ kvs : List (String × JValue), (∀ d ∈ descMembers kvs, g d = d) →
      mutEvMembers g kvs = kvs
  | [] => fun _ => rfl
  | (k0, v0) :: tl => by
    intro h
    simp only [mutEvMembers]
    rw [mutEverywhere_id g v0
        (fun d hd => h d (by
          simp only [descMembers, List.mem_append]
          exact Or.inl hd)),
      mutEvMembers_id g tl
        (fun d hd => h d (by
          simp only [descMembers, List.mem_append]
          exact Or.inr hd))]

theorem mutEvElems_id (g : JValue → JValue) :
    ∀ xs : List JValue, (∀ d ∈ descElems xs, g d = d) →
      mutEvElems g xs = xs
  | [] => fun _ => rfl
  | x0 :: tl => by
    intro h
    simp only [mutEvElems]
    rw [mutEverywhere_id g x0
        (fun d hd => h d (by
          simp only [descElems, List.mem_append]
          exact Or.inl hd)),
      mutEvElems_id g tl
        (fun d hd => h d (by
          simp only [descElems, List.mem_append]
          exact Or.inr hd))]

end

/-- A mutation whose transformer fixes every matched value of a structural
(Field/Wildcard/RecursiveDescent) expression is the identity. -/
theorem jpMut_id :
    ∀ sels : List Selector, (∀ s ∈ sels, isFieldWildRd s = true) →
    ∀ (v : JValue) (g : JValue → JValue),
      (∀ x ∈ jpFind sels v, g x = x) → jpMut g sels v = v
  | [] => by
    intro _ v g h
    exact h v (by simp [jpFind])
  | .field k :: rest => by
    intro hf v g h
    have hf2 : ∀ s ∈ rest, isFieldWildRd s = true :=
      fun s hs => hf s (List.mem_cons_of_mem _ hs)
    cases v with
    | obj kvs =>
      show mutStep (jpMut g rest) (.field k) (.obj kvs) = .obj kvs
      simp only [mutStep]
      cases hl : objLookup kvs k with
      | none => rfl
      | some c =>
        have hc : jpMut g rest c = c :=
          jpMut_id rest hf2 c g
            (fun x hx => h x (by
              simp only [jpFind, selectOne, hl, Option.toList_some,
                List.flatMap_cons, List.flatMap_nil, List.append_nil]
              exact hx))
        rw [objMapFirst_id _ k kvs c hl hc]
    | null => rfl
    | bool b => rfl
    | num n => rfl
    | str s => rfl
    | arr xs => rfl
  | .wild :: rest => by
    intro hf v g h
    have hf2 : ∀ s ∈ rest, isFieldWildRd s = true :=
      fun s hs => hf s (List.mem_cons_of_mem _ hs)
    cases v with
    | obj kvs =>
      show mutStep (jpMut g rest) .wild (.obj kvs) = .obj kvs
      simp only [mutStep]
      rw [mapSnd_id _ kvs]
      intro c hc
      exact jpMut_id rest hf2 c g
        (fun x hx => h x (by
          simp only [jpFind, selectOne, List.mem_flatMap]
          exact ⟨c, hc, hx⟩))
    | arr xs =>
      show mutStep (jpMut g rest) .wild (.arr xs) = .arr xs
      simp only [mutStep]
      rw [mapElems_id _ xs]
      intro c hc
      exact jpMut_id rest hf2 c g
        (fun x hx => h x (by
          simp only [jpFind, selectOne, List.mem_flatMap]
          exact ⟨c, hc, hx⟩))
    | null => rfl
    | bool b => rfl
    | num n => rfl
    | str s => rfl
  | .rd :: rest => by
    intro hf v g h
    have hf2 : ∀ s ∈ rest, isFieldWildRd s = true :=
      fun s hs => hf s (List.mem_cons_of_mem _ hs)
    show mutStep (jpMut g rest) .rd v = v
    simp only [mutStep]
    apply mutEverywhere_id
    intro d hd
    apply jpMut_id rest hf2 d g
    intro x hx
    apply h
    simp only [jpFind, selectOne, List.mem_flatMap]
    exact ⟨d, hd, hx⟩
  | .index i :: rest => by
    intro hf
    have h := hf (.index i) (by simp)
    simp [isFieldWildRd] at h
  | .slice a b :: rest => by
    intro hf
    have h := hf (.slice a b) (by simp)
    simp [isFieldWildRd] at h
  | .filt f op lit :: rest => by
    intro hf
    have h := hf (.filt f op lit) (by simp)
    simp [isFieldWildRd] at h

/-! Claims. -/

/-- Claim C1, counterexample: the claim asserts that members not matched by
the expression are all retained and that the member count decreases by
exactly the number of matched deletions at that level.  Deleting the single
match of the expression selecting member b from a document that also holds a
pre-existing null member a removes a as well: the root member count drops
from 2 to 0 though only one location matched, and the unmatched member a is
not retained. -/
theorem C1_counterexample :
    (jpFind [.field "b"] (.obj [("a", .null), ("b", .num 1)])).length = 1
    ∧ deleteVal (.obj [("a", .null), ("b", .num 1)]) [.field "b"] = .obj []
    ∧ ¬ (memberCount (deleteVal (.obj [("a", .null), ("b", .num 1)]) [.field "b"])
          = memberCount (.obj [("a", .null), ("b", .num 1)])
            - (jpFind [.field "b"] (.obj [("a", .null), ("b", .num 1)])).length) :=
  ⟨rfl, rfl, by decide⟩

/-- Claim C1 (amended): for every document tree and every path expression
with at least one match, delete returns the compaction of the tombstoned
tree: no null (tombstone) value remains anywhere; at each object level the
surviving members are exactly the non-null members, in order, each compacted
recursively, so the member count decreases by exactly the number of members
holding null after the tombstone pass — this equals the number of matched
deletions only when the document holds no pre-existing nulls; arrays keep
exactly their non-null elements in order (no gaps). -/
theorem C1_amended :
    ∀ (doc : JValue) (sels : List Selector),
      (jpFind sels doc).isEmpty = false →
      (deleteVal doc sels = clean_none_values (jpUpdate doc sels .null)
       ∧ nullFree (deleteVal doc sels) = true)
      ∧ (∀ kvs : List (String × JValue),
          cleanMembers kvs
            = (kvs.filter (fun q => !(isNullB q.2))).map
                (fun q => (q.1, clean_none_values q.2))
          ∧ memberCount (.obj (cleanMembers kvs))
              = kvs.length - (kvs.filter (fun q => isNullB q.2)).length)
      ∧ (∀ xs : List JValue,
          cleanElems xs
            = (xs.filter (fun e => !(isNullB e))).map clean_none_values) := by
  intro doc sels h
  refine ⟨⟨?_, ?_⟩,
    fun kvs => ⟨cleanMembers_eq_filter kvs, cleanMembers_length kvs⟩,
    fun xs => cleanElems_eq_filter xs⟩
  · simp [deleteVal, h]
  · simp only [deleteVal, h, Bool.false_eq_true, if_false]
    exact nullFree_clean _

/-- Witness for the amended C1 at a concrete input. -/
theorem C1_amended_witness :
    (jpFind [.field "a"] (.obj [("a", .num 1)])).isEmpty = false
    ∧ deleteVal (.obj [("a", .num 1)]) [.field "a"]
        = clean_none_values
            (jpUpdate (.obj [("a", .num 1)]) [.field "a"] .null) :=
  ⟨rfl, ((C1_amended (.obj [("a", .num 1)]) [.field "a"] rfl).1).1⟩

/-- Claim C2, counterexample: the claim asserts that a too-short array at an
Index step is padded with empty-object placeholders.  For the trailing Index
step of the synthesized path `a[1]` on an empty document, the padding
placeholder is null, not an empty object. -/
theorem C2_counterexample :
    create_path_str (.obj []) "$.a[1]" (.num 5)
      = .ok (.obj [("a", .arr [.null, .num 5])])
    ∧ create_path_str (.obj []) "$.a[1]" (.num 5)
      ≠ .ok (.obj [("a", .arr [.obj [], .num 5])]) :=
  ⟨rfl, by decide⟩

/-- Claim C2 (amended): zero-match synthesis walks the selectors denoted by
the parsed components left to right; a missing member at a Field step is
created as an array exactly when the next selector is an Index and as an
object otherwise; a too-short array at an intermediate Index step is padded
with empty-object placeholders, while at a final Index step it is padded
with nulls; the final selector's target is set to the value.  This is the
refinement equality between the implementation walk and the selector-level
description, plus the synthesis-minimality scenario. -/
theorem C2_theorem :
    (∀ (comps : List Component) (v newV : JValue),
      create_path v comps newV = synthSpec v (selectorsOf comps) newV)
    ∧ create_path_str (.obj []) "$.x.y" (.num 5)
        = .ok (.obj [("x", .obj [("y", .num 5)])]) :=
  ⟨fun comps v newV => create_path_eq_synthSpec comps v newV, rfl⟩

/-- Claim C4, counterexample: the claim asserts that a zero-match update
whose path holds a negative index always fails.  On a document whose array
a holds one object, the path `a[-1].b` has zero matches, yet synthesis
succeeds by resolving the negative index from the end of the existing
array. -/
theorem C4_counterexample :
    jpFind [.field "a", .index (-1), .field "b"]
        (.obj [("a", .arr [.obj []])]) = []
    ∧ create_path_str (.obj [("a", .arr [.obj []])]) "$.a[-1].b" (.num 7)
        = .ok (.obj [("a", .arr [.obj [("b", .num 7)]])]) :=
  ⟨rfl, rfl⟩

/-- Claim C4 (amended): synthesis never pads an array for a negative index
(the padding loop does not run), so creating a missing member at a trailing
negative Index step yields an empty array whose negative index cannot be
resolved, and the operation fails with a data error — not a dedicated
unsupported-operation error; a negative index that resolves inside an
existing array is accepted. -/
theorem C4_amended :
    ∀ (k : String) (i : Int) (v : JValue), i < 0 →
      create_path (.obj []) [⟨k, true, i⟩] v = .error .dataErr
      ∧ (∀ (xs : List JValue) (filler : JValue), padTo xs i filler = xs) := by
  intro k i v hi
  have hps : padSet [] i v = .error .dataErr := by
    unfold padSet
    have h1 : padTo [] i .null = [] := by simp [padTo, hi]
    rw [h1]
    have h2 : pyIdx 0 i = none := by
      unfold pyIdx
      rw [if_neg (by omega), if_neg (by push_cast; omega)]
    simp only [List.length_nil]
    rw [h2]
  constructor
  · by_cases hk : k = ""
    · subst hk
      simp only [create_path]
      rw [if_pos (by simp), if_pos (by simp)]
      rw [show asArr (JValue.obj []) = .error .dataErr from rfl, bindE_err]
    · simp only [create_path]
      rw [if_pos (by simp), if_neg (by simpa using hk)]
      rw [show asObj (JValue.obj []) = .ok [] from rfl, bindE_ok]
      rw [show asArr ((objLookup [] k).getD (.arr [])) = .ok [] from rfl,
        bindE_ok]
      rw [hps, bindE_err]
  · intro xs filler
    simp [padTo, hi]

/-- Witness for the amended C4 at a concrete input. -/
theorem C4_amended_witness :
    ((-1 : Int) < 0)
    ∧ create_path (.obj []) [⟨"a", true, -1⟩] (.num 7) = .error .dataErr :=
  ⟨by decide, (C4_amended "a" (-1) (.num 7) (by decide)).1⟩

/-- Claim C9: deletion's tombstone is the same value as JSON null, so after
any delete with at least one match the returned tree holds no null-valued
member or element anywhere — including pre-existing nulls at locations the
expression did not match, which are therefore not preserved: deleting del
from a document also holding the null member x removes x as well, keeping
only the non-null unmatched member. -/
theorem C9_theorem :
    (∀ (doc : JValue) (sels : List Selector),
      (jpFind sels doc).isEmpty = false →
      nullFree (deleteVal doc sels) = true)
    ∧ deleteVal (.obj [("x", .null), ("keep", .num 1), ("del", .num 2)])
        [.field "del"] = .obj [("keep", .num 1)] := by
  constructor
  · intro doc sels h
    simp only [deleteVal, h, Bool.false_eq_true, if_false]
    exact nullFree_clean _
  · rfl

/-- Witness for C9 at a concrete input. -/
theorem C9_witness :
    nullFree (deleteVal (.obj [("a", .null), ("b", .num 2)]) [.field "a"])
      = true :=
  C9_theorem.1 (.obj [("a", .null), ("b", .num 2)]) [.field "a"] rfl

/-- Claim C3, counterexample: the claim asserts update/read consistency for
every non-wildcard path.  First, a slice contains no Wildcard selector, yet
after updating the two matches of the slice both slots are read back, so
resolve returns a two-element sequence instead of exactly the value.
Second, the bare root path (no selectors) has a match without a container
reference, so the library update leaves the document unchanged.  Third,
even a path compiling to a single Field selector breaks consistency when
its text does not re-parse to that selector: on an empty document the
bracket-quoted path whose member name is a-dot-b (one Field selector) has
zero matches, so the update core re-parses the path text, whose dot-split
produces two garbage components; the update succeeds creating garbage keys,
and resolving the same path afterwards still has zero matches and returns
the default instead of the written value. -/
theorem C3_counterexample :
    jpFind [.field "a", .slice 0 2]
        (.obj [("a", .arr [.num 1, .num 2, .num 3])]) ≠ []
    ∧ matchResult (jpFind [.field "a", .slice 0 2]
        (jpUpdate (.obj [("a", .arr [.num 1, .num 2, .num 3])])
          [.field "a", .slice 0 2] (.num 9)))
      = .multi [.num 9, .num 9]
    ∧ (RValue.multi [.num 9, .num 9] ≠ RValue.single (.num 9))
    ∧ jpUpdate (.obj [("a", .num 1)]) [] (.num 5) = .obj [("a", .num 1)]
    ∧ updateVal
        (fun s => if s = "$['a.b']" then .ok [.field "a.b"]
          else .error .dataErr)
        (.obj []) "$['a.b']" (.num 4)
      = .ok (.obj [("['a", .obj [("b']", .num 4)])])
    ∧ jpFind [.field "a.b"] (.obj [("['a", .obj [("b']", .num 4)])]) = []
    ∧ matchResult (jpFind [.field "a.b"]
        (.obj [("['a", .obj [("b']", .num 4)])])) = .rdefault
    ∧ (RValue.rdefault ≠ RValue.single (.num 4)) :=
  ⟨by decide, rfl, by decide, rfl, by decide, by decide, rfl, by decide⟩

/-- Claim C3 (amended): for every document, every value, and every path p
such that (i) p compiles to a nonempty sequence of Field and Index
selectors only (no Wildcard, RecursiveDescent, Slice or Filter, and not the
bare root), (ii) the text of p contains no star and no double-dot, and
(iii) the text of p minus its root marker is nonempty and parses into
dot/bracket components denoting exactly the compiled selector sequence — if
update succeeds then resolving the same path on the result yields exactly
the single written value.  The text-level conditions (ii) and (iii) are
forced by the bracket-quoted counterexample: zero-match synthesis re-parses
the path text rather than using the compiled selectors. -/
theorem C3_amended :
    ∀ (compile : String → Except PErr (List Selector)) (data : JValue)
      (p : String) (v : JValue) (sels : List Selector)
      (comps : List Component) (out : JValue),
      compile p = .ok sels →
      (∀ s ∈ sels, isFI s = true) →
      sels ≠ [] →
      hasStar p = false →
      hasDotDot p = false →
      stripRoot p ≠ "" →
      parse_path_components (stripRoot p) = .ok comps →
      sels = selectorsOf comps →
      updateVal compile data p v = .ok out →
      jpFind sels out = [v] ∧ matchResult (jpFind sels out) = .single v := by
  intro compile data p v sels comps out hc hfi hne hstar hdd hsr hpc hsec hupd
  have main : jpFind sels out = [v] := by
    unfold updateVal at hupd
    rw [hc] at hupd
    dsimp only at hupd
    by_cases hm : (jpFind sels data).isEmpty = true
    · rw [if_pos hm, hstar, hdd] at hupd
      simp only [Bool.or_false, Bool.false_eq_true, if_false] at hupd
      unfold create_path_str at hupd
      rw [if_neg hsr, hpc, bindE_ok] at hupd
      rw [hsec]
      exact find_create_path comps data v out hupd
    · replace hm : (jpFind sels data).isEmpty = false := by simpa using hm
      rw [hm] at hupd
      simp only [Bool.false_eq_true, if_false, Except.ok.injEq] at hupd
      subst hupd
      cases sels with
      | nil => exact absurd rfl hne
      | cons s rest =>
        have hfind : jpFind (s :: rest) data ≠ [] := by
          intro hcontra
          rw [hcontra] at hm
          simp at hm
        simp only [jpUpdate]
        exact find_jpMut_const (s :: rest) data v hfi hfind
  exact ⟨main, by rw [main]; rfl⟩

/-- Witness for the amended C3 at a concrete input (a two-member synthesized
path on an empty document). -/
theorem C3_amended_witness :
    jpFind [Selector.field "q", Selector.field "w"]
      (.obj [("q", .obj [("w", .num 3)])]) = [.num 3] :=
  (C3_amended
    (fun s => if s = "$.q.w" then .ok [.field "q", .field "w"]
      else .error .dataErr)
    (.obj []) "$.q.w" (.num 3) [.field "q", .field "w"]
    [⟨"q", false, 0⟩, ⟨"w", false, 0⟩]
    (.obj [("q", .obj [("w", .num 3)])])
    rfl (by decide) (by decide) rfl rfl (by decide) rfl rfl rfl).1

/-- Claim C8, counterexample: deletion is not idempotent for paths with a
positional selector — an Index or a Slice matches the elements that
compaction shifted onto the deleted slots, so a second delete removes more —
and not for a Filter path, because compaction can rewrite a surviving
element (here by dropping a null member) so that it matches the filter on
the second delete. -/
theorem C8_counterexample :
    (deleteVal (deleteVal (.obj [("a", .arr [.num 1, .num 2, .num 3])])
        [.field "a", .index 0]) [.field "a", .index 0]
      ≠ deleteVal (.obj [("a", .arr [.num 1, .num 2, .num 3])])
          [.field "a", .index 0])
    ∧ (deleteVal (deleteVal (.obj [("a", .arr [.num 1, .num 2])])
        [.field "a", .slice 0 1]) [.field "a", .slice 0 1]
      ≠ deleteVal (.obj [("a", .arr [.num 1, .num 2])])
          [.field "a", .slice 0 1])
    ∧ (deleteVal (deleteVal
          (.obj [("a", .arr [.obj [("f", .obj [("b", .null)])],
            .obj [("f", .obj [])]])])
          [.field "a", .filt "f" .ceq (.obj [])])
        [.field "a", .filt "f" .ceq (.obj [])]
      ≠ deleteVal
          (.obj [("a", .arr [.obj [("f", .obj [("b", .null)])],
            .obj [("f", .obj [])]])])
          [.field "a", .filt "f" .ceq (.obj [])]) :=
  ⟨by decide, by decide, by decide⟩

/-- Claim C8 (amended): for every document tree and every compiled path
expression, an expression with zero matches makes delete a successful no-op
that returns the document unchanged rather than an error; and for every
well-formed document (objects never repeat a key, as Python dicts cannot)
and every path built from Field, Wildcard and RecursiveDescent selectors —
excluding the positional selectors Index and Slice, whose matches shift
onto the deleted slots under compaction, and Filter, whose match set can
change when compaction rewrites the surviving elements — delete is
idempotent: deleting the same path twice yields the same document as
deleting it once. -/
theorem C8_amended :
    (∀ (doc : JValue) (sels : List Selector),
      (jpFind sels doc).isEmpty = true → deleteVal doc sels = doc)
    ∧ (∀ (doc : JValue) (sels : List Selector),
      wfB doc = true → (∀ s ∈ sels, isFieldWildRd s = true) →
      deleteVal (deleteVal doc sels) sels = deleteVal doc sels) := by
  constructor
  · intro doc sels h
    simp [deleteVal, h]
  · intro doc sels hwf hf
    by_cases h : (jpFind sels doc).isEmpty = true
    · simp [deleteVal, h]
    · replace h : (jpFind sels doc).isEmpty = false := by simpa using h
      have hd1 : deleteVal doc sels
          = clean_none_values (jpUpdate doc sels .null) := by
        simp [deleteVal, h]
      cases sels with
      | nil =>
        rw [hd1]
        simp only [jpUpdate]
        have hne : (jpFind ([] : List Selector)
            (clean_none_values doc)).isEmpty = false := by
          simp [jpFind]
        simp [deleteVal, hne, jpUpdate, clean_idem]
      | cons s rest =>
        rw [hd1]
        simp only [jpUpdate]
        have hGnull : ∀ x ∈ jpFind (s :: rest)
            (clean_none_values
              (jpMut (fun _ => JValue.null) (s :: rest) doc)),
            x = JValue.null :=
          find_clean_null (s :: rest) hf _
            (wf_jpMut (s :: rest) doc hwf)
            (find_mut_self_null (s :: rest) hf doc)
        have hfix : jpMut (fun _ => JValue.null) (s :: rest)
            (clean_none_values
              (jpMut (fun _ => JValue.null) (s :: rest) doc))
            = clean_none_values
                (jpMut (fun _ => JValue.null) (s :: rest) doc) :=
          jpMut_id (s :: rest) hf _ (fun _ => JValue.null)
            (fun x hx => (hGnull x hx).symm)
        unfold deleteVal
        by_cases h2 : (jpFind (s :: rest)
            (clean_none_values
              (jpMut (fun _ => JValue.null) (s :: rest) doc))).isEmpty
            = true
        · rw [if_pos h2]
        · rw [if_neg h2]
          simp only [jpUpdate]
          rw [hfix]
          exact clean_of_nullFree _ (nullFree_clean _)

/-- Witness for the amended C8 at concrete inputs: a zero-match no-op, and
an idempotence instance whose path carries a Wildcard selector. -/
theorem C8_amended_witness :
    deleteVal (.obj [("b", .num 1)]) [.field "a"] = .obj [("b", .num 1)]
    ∧ (deleteVal (deleteVal
          (.obj [("a", .arr [.obj [("b", .num 1)], .obj [("b", .num 2)]])])
          [.field "a", .wild, .field "b"])
        [.field "a", .wild, .field "b"]
      = deleteVal
          (.obj [("a", .arr [.obj [("b", .num 1)], .obj [("b", .num 2)]])])
          [.field "a", .wild, .field "b"]) :=
  ⟨C8_amended.1 (.obj [("b", .num 1)]) [.field "a"] (by decide),
   C8_amended.2
     (.obj [("a", .arr [.obj [("b", .num 1)], .obj [("b", .num 2)]])])
     [.field "a", .wild, .field "b"] (by decide) (by decide)⟩

/-- Claim C5: for a zero-match update whose path text has the shape of an
array path followed by a single trailing wildcard and a single trailing
member name, the update core resolves the array path and sets the trailing
member in place on every object element of every matched array, skipping
non-object elements silently and never changing any array's length. -/
theorem C5_theorem :
    ∀ (compile : String → Except PErr (List Selector)) (data : JValue)
      (path A F : String) (v : JValue) (sels0 sels : List Selector),
      compile path = .ok sels0 →
      (jpFind sels0 data).isEmpty = true →
      (hasStar path || hasDotDot path) = true →
      pyStartsWith path "$." = true →
      hasSubstr path "[*]" = true →
      pySplit (pyDrop path 2) "[*]." = [A, F] →
      compile ("$." ++ A) = .ok sels →
      updateVal compile data path v
        = .ok (jpMut (setMemberOnObjects F v) sels data)
      ∧ (∀ xs : List JValue,
          setMemberOnObjects F v (.arr xs)
            = .arr (xs.map (fun e =>
                match e with
                | .obj kvs => .obj (objSet kvs F v)
                | _ => e))
          ∧ (match setMemberOnObjects F v (.arr xs) with
             | .arr ys => ys.length = xs.length
             | _ => False)) := by
  intro compile data path A F v sels0 sels hc hm hdisp hstart hsub hsplit hcA
  constructor
  · unfold updateVal
    rw [hc]
    dsimp only
    rw [hm]
    simp only [if_true]
    rw [hdisp]
    simp only [if_true]
    unfold handle_wildcard_creation
    rw [hstart, hsub]
    simp only [Bool.and_self, if_true]
    rw [hsplit]
    simp only [List.length_cons, List.length_nil, List.headD_cons,
      List.getD_cons_succ, List.getD_cons_zero]
    simp only [if_true, hcA]
  · intro xs
    refine ⟨rfl, ?_⟩
    simp [setMemberOnObjects]

/-- Witness for C5 at a concrete input. -/
theorem C5_witness :
    updateVal
      (fun s => if s = "$.products" then .ok [.field "products"]
        else if s = "$.products[*].category"
          then .ok [.field "products", .wild, .field "category"]
          else .error .dataErr)
      (.obj [("products", .arr [.obj [("id", .num 1)], .num 2])])
      "$.products[*].category" (.str "t")
    = .ok (jpMut (setMemberOnObjects "category" (.str "t"))
        [.field "products"]
        (.obj [("products", .arr [.obj [("id", .num 1)], .num 2])])) :=
  (C5_theorem
    (fun s => if s = "$.products" then .ok [.field "products"]
      else if s = "$.products[*].category"
        then .ok [.field "products", .wild, .field "category"]
        else .error .dataErr)
    (.obj [("products", .arr [.obj [("id", .num 1)], .num 2])])
    "$.products[*].category" "products" "category" (.str "t")
    [.field "products", .wild, .field "category"] [.field "products"]
    rfl rfl rfl rfl rfl rfl rfl).1

/-- Claim C6: resolve returns the caller-supplied default when the field is
absent or blank or the path matches nothing; it returns the single matched
value when there is exactly one match, and the ordered sequence of matched
values when there are several. -/
theorem C6_theorem :
    ∀ (env : Env) (st : DocState) (p fn : String) (j : JValue)
      (sels : List Selector),
      pyStrip p ≠ "" →
      ((lookupField st fn = none →
          (resolve_path env st (.astr p) (.astr fn)).result = .ok .rdefault)
       ∧ (∀ s, lookupField st fn = some (.ftext s) → pyStrip s = "" →
          (resolve_path env st (.astr p) (.astr fn)).result = .ok .rdefault)
       ∧ (∀ s, lookupField st fn = some (.ftext s) → pyStrip s ≠ "" →
          env.loads s = some j → env.compile p = .ok sels →
          (resolve_path env st (.astr p) (.astr fn)).result
            = .ok (matchResult (jpFind sels j)))
       ∧ (lookupField st fn = some (.fjson j) → isContainer j = true →
          env.compile p = .ok sels →
          (resolve_path env st (.astr p) (.astr fn)).result
            = .ok (matchResult (jpFind sels j)))
       ∧ (jpFind sels j = [] → matchResult (jpFind sels j) = .rdefault)
       ∧ (∀ w, jpFind sels j = [w] →
          matchResult (jpFind sels j) = .single w)
       ∧ (∀ w1 w2 ws, jpFind sels j = w1 :: w2 :: ws →
          matchResult (jpFind sels j) = .multi (w1 :: w2 :: ws))) := by
  intro env st p fn j sels hp
  refine ⟨?_, ?_, ?_, ?_, ?_, ?_, ?_⟩
  · intro hl
    simp only [resolve_path, if_neg hp]
    rw [hl]
  · intro s hl hs
    simp only [resolve_path, if_neg hp]
    rw [hl]
    dsimp only
    rw [if_pos hs]
  · intro s hl hs hld hcp
    simp only [resolve_path, if_neg hp]
    rw [hl]
    dsimp only
    rw [if_neg hs, hld]
    dsimp only
    rw [hcp]
  · intro hl hcont hcp
    simp only [resolve_path, if_neg hp]
    rw [hl]
    dsimp only
    rw [hcont]
    simp only [if_true]
    rw [hcp]
  · intro h
    rw [h]
    rfl
  · intro w h
    rw [h]
    rfl
  · intro w1 w2 ws h
    rw [h]
    rfl

/-- Witness for C6 at a concrete input (the single-match case). -/
theorem C6_witness :
    (resolve_path ⟨fun _ => .ok [.field "a"], fun _ => none, fun _ => ""⟩
        [("json_payload", .fjson (.obj [("a", .num 1)]))]
        (.astr "$.a") (.astr "json_payload")).result
      = .ok (matchResult (jpFind [.field "a"] (.obj [("a", .num 1)]))) :=
  (C6_theorem ⟨fun _ => .ok [.field "a"], fun _ => none, fun _ => ""⟩
    [("json_payload", .fjson (.obj [("a", .num 1)]))]
    "$.a" "json_payload" (.obj [("a", .num 1)]) [.field "a"]
    (by decide)).2.2.2.1 rfl rfl rfl

/-- Claim C7: no failing operation changes the stored fields (resolve never
does; update and delete persist only on success), and an argument-validation
failure (non-string or blank path, non-string field name) is surfaced as a
validation error with nothing logged and the field never read. -/
theorem C7_theorem :
    ∀ (env : Env) (st : DocState) (pa fa : Arg) (v : JValue),
      ((resolve_path env st pa fa).state = st)
      ∧ (isOkE (update_path env st pa fa v).result = false →
          (update_path env st pa fa v).state = st)
      ∧ (isOkE (delete_path env st pa fa).result = false →
          (delete_path env st pa fa).state = st)
      ∧ (badArgs pa fa = true →
          resolve_path env st pa fa = ⟨.error .validation, st, 0, false⟩
          ∧ update_path env st pa fa v = ⟨.error .validation, st, 0, false⟩
          ∧ delete_path env st pa fa = ⟨.error .validation, st, 0, false⟩) := by
  intro env st pa fa v
  have hres : (resolve_path env st pa fa).state = st := by
    cases pa <;> cases fa <;> simp only [resolve_path] <;> (repeat' split) <;> rfl
  have hupd : (update_path env st pa fa v).state = st
      ∨ isOkE (update_path env st pa fa v).result = true := by
    cases pa <;> cases fa <;> simp only [update_path] <;> (repeat' split) <;>
      first
        | exact Or.inl trivial
        | exact Or.inl rfl
        | exact Or.inr rfl
  have hdel : (delete_path env st pa fa).state = st
      ∨ isOkE (delete_path env st pa fa).result = true := by
    cases pa <;> cases fa <;> simp only [delete_path, deleteCore] <;>
        (repeat' split) <;>
      first
        | exact Or.inl trivial
        | exact Or.inl rfl
        | exact Or.inr rfl
  refine ⟨hres, ?_, ?_, ?_⟩
  · intro h
    rcases hupd with h1 | h1
    · exact h1
    · rw [h1] at h
      exact absurd h (by simp)
  · intro h
    rcases hdel with h1 | h1
    · exact h1
    · rw [h1] at h
      exact absurd h (by simp)
  · intro hb
    cases pa with
    | nonString => exact ⟨rfl, rfl, rfl⟩
    | astr p =>
      cases fa with
      | nonString =>
        refine ⟨?_, ?_, ?_⟩ <;>
          simp only [resolve_path, update_path, delete_path] <;>
          split <;> rfl
      | astr fn =>
        have hp : pyStrip p = "" := by simpa [badArgs] using hb
        exact ⟨by simp only [resolve_path, if_pos hp],
          by simp only [update_path, if_pos hp],
          by simp only [delete_path, if_pos hp]⟩

/-- Witness for C7 at a concrete input (a blank path). -/
theorem C7_witness :
    badArgs (.astr " ") (.astr "f") = true
    ∧ update_path ⟨fun _ => .error .dataErr, fun _ => none, fun _ => ""⟩ []
        (.astr " ") (.astr "f") (.num 1)
      = ⟨.error .validation, [], 0, false⟩ :=
  ⟨by decide,
    ((C7_theorem ⟨fun _ => .error .dataErr, fun _ => none, fun _ => ""⟩
      [] (.astr " ") (.astr "f") (.num 1)).2.2.2 (by decide)).2.1⟩

/-- Claim C10: resolving against a field name that is not present on the
record returns the default value through a successful result — no error is
raised, nothing is logged, the state is unchanged; an absent field is
indistinguishable from an empty one. -/
theorem C10_theorem :
    ∀ (env : Env) (st : DocState) (p fn : String),
      pyStrip p ≠ "" → lookupField st fn = none →
      resolve_path env st (.astr p) (.astr fn)
        = ⟨.ok .rdefault, st, 0, true⟩ := by
  intro env st p fn hp hl
  simp only [resolve_path, if_neg hp]
  rw [hl]

/-- Witness for C10 at a concrete input. -/
theorem C10_witness :
    resolve_path ⟨fun _ => .error .dataErr, fun _ => none, fun _ => ""⟩ []
      (.astr "$.a") (.astr "json_payload")
    = ⟨.ok .rdefault, [], 0, true⟩ :=
  C10_theorem ⟨fun _ => .error .dataErr, fun _ => none, fun _ => ""⟩ []
    "$.a" "json_payload" (by decide) rfl

end IntGW
